import Mathlib

/-!
# Turing machine emulator: shallow embedding of `TuringMachine.h` and of the
input loop of `rachelleBurgos_TM.cpp`

Conventions of the embedding.

* A C++ `char` is a `Char`, a `std::string` and the `std::vector<char>` tape are
  `List Char`.
* `size_t` values are natural numbers. Container sizes stay below `2 ^ 64`, so
  additions are exact; the subtractions of the source that can pass below zero
  go through `subSizeT`, which wraps modulo `2 ^ 64`.
* `std::map` is an association list with unique keys: `mapFind` is `find`,
  `mapAssign` is `operator[]` followed by an assignment.
* Standard input is the list of the pieces that its newlines cut it into: every
  element but the last was ended by a newline, and the last element is what
  follows the last newline. So the input `abc`, newline, is `["abc", ""]` and the
  input `abc` without a newline is `["abc"]`; the empty list is the end of the
  input. `std::getline` on the last piece, when that piece is not empty, returns it
  and leaves the stream at its end: a further `std::getline` then fails without
  erasing the string. At the end of the input `std::getline` erases the string.
* `_kbhit()` followed by `getchar()` is an `Option Char`: `none` when no key is
  waiting, `some c` when the key `c` was read.
* An out of bounds access to the tape is undefined behaviour and is the value
  `none` of the functions that return an `Option`.
-/

namespace TuringMachine

/-! ## Characters, strings, `size_t` -/

/-- A `std::string`. -/
abbrev Str := List Char

/-- The `std::isspace` test in the default "C" locale: space, `\t`, `\n`, `\v`, `\f`, `\r`. -/
def isspace (c : Char) : Bool :=
  c == ' ' || c == '\t' || c == '\n' || c == '\x0b' || c == '\x0c' || c == '\r'

/-- The constant `std::string::npos`, the largest `size_t`. -/
def npos : Nat := 2 ^ 64 - 1

/-- Subtraction of two `size_t` values: exact when it does not pass below zero,
wrapping modulo `2 ^ 64` otherwise. -/
def subSizeT (a b : Nat) : Nat :=
  if b ≤ a then a - b else (a + 2 ^ 64 - b) % 2 ^ 64

/-- The call `s.substr(pos, count)` for `pos ≤ s.size()`: at most `count` characters from `pos`. -/
def substr (s : Str) (pos count : Nat) : Str :=
  (s.drop pos).take count

/-- The call `s.find_first_not_of(ch)`: index of the first character other than `ch`, or `npos`. -/
def find_first_not_of (s : Str) (ch : Char) : Nat :=
  match s.findIdx? (fun x => x != ch) with
  | some i => i
  | none => npos

/-- The call `s.find_last_not_of(ch, pos)`: index of the last character other than `ch`
among the indices `≤ pos`, or `npos`. -/
def find_last_not_of (s : Str) (ch : Char) (pos : Nat) : Nat :=
  let pre := s.take (pos + 1)
  match pre.reverse.findIdx? (fun x => x != ch) with
  | some j => pre.length - 1 - j
  | none => npos

/-- The call `line.find("//")`: index of the first occurrence of two consecutive slashes. -/
def findComment : Str → Option Nat
  | [] => none
  | [_] => none
  | a :: b :: rest =>
    if a = '/' ∧ b = '/' then some 0
    else (findComment (b :: rest)).map (fun i => i + 1)

/-- The test `line.substr(0, 2) == "//"`. -/
def startsWithComment (line : Str) : Bool :=
  line.take 2 == ['/', '/']

/-! ## The transition map -/

/-- A key of the map: current state, current tape symbol. -/
abbrev Key := Char × Char

/-- A value of the map: (new state, new tape symbol), direction. -/
abbrev Value := (Char × Char) × Char

/-- The type `TRANSITION_MAP`. -/
abbrev TRANSITION_MAP := List (Key × Value)

/-- The call `m.find(k)`: `none` stands for `m.end()`. -/
def mapFind : TRANSITION_MAP → Key → Option Value
  | [], _ => none
  | (k', v) :: rest, k => if k' = k then some v else mapFind rest k

/-- The statement `m[k] = v`: replaces the value of an existing key, adds the key otherwise. -/
def mapAssign : TRANSITION_MAP → Key → Value → TRANSITION_MAP
  | [], k, v => [(k, v)]
  | (k', v') :: rest, k, v =>
    if k' = k then (k, v) :: rest else (k', v') :: mapAssign rest k v

/-- The five `char` variables that one description line is read into. -/
structure FiveTuple where
  input_current_state : Char
  current_tape_symbol : Char
  new_state : Char
  new_tape_symbol : Char
  direction : Char
deriving DecidableEq, Repr

/-- The extraction `ss >> a >> b >> c >> d >> e` on the text `line`: each `>>` skips
white space and stores one character; once the text is exhausted the stream fails and
the remaining variables keep the values `u` they had before (they are declared without
an initial value, so `u` is indeterminate). -/
def extract (u : FiveTuple) (line : Str) : FiveTuple :=
  let toks := line.filter (fun c => !isspace c)
  { input_current_state := toks.getD 0 u.input_current_state
    current_tape_symbol := toks.getD 1 u.current_tape_symbol
    new_state := toks.getD 2 u.new_state
    new_tape_symbol := toks.getD 3 u.new_tape_symbol
    direction := toks.getD 4 u.direction }

/-- Lines 44 to 47 of `createTransitionFunction`: when the line contains two consecutive
slashes, keep only what stands before the first such pair. -/
def stripComment (line : Str) : Str :=
  match findComment line with
  | some i => substr line 0 i
  | none => line

/-- One iteration of the `while (std::getline(in_file, line))` loop of
`createTransitionFunction`, on the line `line`; `u` holds the indeterminate initial
values of the five variables of this iteration. -/
def createTransitionFunctionLine (u : FiveTuple) (tf : TRANSITION_MAP) (line : Str) :
    TRANSITION_MAP :=
  if startsWithComment line || line.isEmpty then tf
  else
    let t := extract u (stripComment line)
    mapAssign tf (t.input_current_state, t.current_tape_symbol)
      ((t.new_state, t.new_tape_symbol), t.direction)

/-- The function `createTransitionFunction`: the loop over the lines of the description,
starting from the map `tf`; `u n` holds the indeterminate initial values of the five
variables in the iteration that reads line `n`. -/
def createTransitionFunctionFrom (u : Nat → FiveTuple) :
    Nat → TRANSITION_MAP → List Str → TRANSITION_MAP
  | _, tf, [] => tf
  | n, tf, line :: rest =>
    createTransitionFunctionFrom u (n + 1) (createTransitionFunctionLine (u n) tf line) rest

/-- The function `createTransitionFunction` on a machine whose map is still empty. -/
def createTransitionFunction (u : Nat → FiveTuple) (lines : List Str) : TRANSITION_MAP :=
  createTransitionFunctionFrom u 0 [] lines

/-! ## The machine -/

/-- The data members of `class TuringMachine`. -/
structure Config where
  transition_function : TRANSITION_MAP
  tape : List Char
  current_state : Char
  read_write_head_index : Nat
deriving DecidableEq, Repr

/-- The function `initializeTape`: clear, push `B`, push every input symbol, push `B`. -/
def initializeTape (c : Config) (input_string : Str) : Config :=
  let tape : List Char := []
  let tape := tape ++ ['B']
  let tape := input_string.foldl (fun t symbol => t ++ [symbol]) tape
  let tape := tape ++ ['B']
  { c with tape := tape }

/-- The function `resetHead`. -/
def resetHead (c : Config) : Config :=
  { c with read_write_head_index := 0 }

/-- The function `moveHead`. -/
def moveHead (c : Config) (direction : Char) : Config :=
  if direction = 'R' then
    if c.read_write_head_index = subSizeT c.tape.length 1 then
      { c with tape := c.tape ++ ['B'], read_write_head_index := c.read_write_head_index + 1 }
    else if c.read_write_head_index < subSizeT c.tape.length 1 then
      { c with read_write_head_index := c.read_write_head_index + 1 }
    else c
  else if direction = 'L' then
    if c.read_write_head_index = 0 then
      { c with tape := 'B' :: c.tape, read_write_head_index := 0 }
    else if c.read_write_head_index > 0 then
      { c with read_write_head_index := c.read_write_head_index - 1 }
    else c
  else c

/-- The two-argument constructor once `createTransitionFunction` has built the map `tf`:
member initialisers, `initializeTape`, `resetHead`. -/
def construct (tf : TRANSITION_MAP) (input_string : Str) : Config :=
  let c : Config :=
    { transition_function := tf, tape := [], current_state := '0', read_write_head_index := 0 }
  resetHead (initializeTape c input_string)

/-- The two-argument constructor `TuringMachine(in_file, input_string)` on the lines of
the description file. -/
def constructFromFile (u : Nat → FiveTuple) (lines : List Str) (input_string : Str) : Config :=
  construct (createTransitionFunction u lines) input_string

/-! ## Output -/

/-- What the program writes: one constructor per output statement of the source. -/
inductive Output where
  /-- The line written by `printID`: left part, state, right part. -/
  | id (left : Str) (state : Char) (right : Str)
  /-- "Turing Machine halted. Enter a new input string to be processed." -/
  | halted
  /-- "Error: Invalid input string. ..." on the error stream. -/
  | invalid
  /-- "String was accepted by the Turing Machine." -/
  | accepted
  /-- "There is no transition out of this state. String was rejected by the Turing Machine." -/
  | rejected
deriving DecidableEq, Repr

/-- The function `printID`, as the three parts of the line it writes. -/
def printID (c : Config) (state : Char) : Output :=
  let tape_str : Str := c.tape.foldl (fun s symbol => s ++ [symbol]) []
  let first_non_blank_symbol := find_first_not_of tape_str 'B'
  let last_non_blank_symbol0 := find_last_not_of tape_str 'B' npos
  let last_non_blank_symbol :=
    if last_non_blank_symbol0 ≠ npos ∧ tape_str[last_non_blank_symbol0]? = some 'B' then
      find_last_not_of tape_str 'B' (subSizeT last_non_blank_symbol0 1)
    else last_non_blank_symbol0
  let left :=
    if first_non_blank_symbol ≠ npos then
      substr tape_str first_non_blank_symbol c.read_write_head_index
    else []
  let right :=
    if last_non_blank_symbol ≠ npos ∧ c.read_write_head_index + 1 < tape_str.length then
      substr tape_str (c.read_write_head_index + 1)
        (subSizeT last_non_blank_symbol c.read_write_head_index)
    else []
  Output.id left state right

/-! ## Input validation -/

/-- What a validation loop leaves behind: the input string, the lines not yet read,
and the number of error messages written. -/
structure Validated where
  input_string : Str
  rest : List Str
  errors : Nat
  /-- The loop never ends: the last piece of the input, not ended by a newline, was
  rejected, `std::getline` now fails without erasing it, and the same string is
  rejected again and again, with an error message each time. -/
  forever : Bool := false
deriving DecidableEq, Repr

/-- The `for (char symbol: input_string)` loop of `main`: the value of `valid_input`
after the loop, from its value `valid_input` before. -/
def mainCheckSymbols : Str → Bool → Bool
  | [], valid_input => valid_input
  | symbol :: rest, _ =>
    if symbol ≠ '0' ∧ symbol ≠ '1' then false else mainCheckSymbols rest true

/-- The `while (!valid_input)` loop of `main` (lines 31 to 58) on the pieces of standard
input. A rejected piece that a newline ended is followed by the next call of
`std::getline`; a rejected last piece is read again for ever. -/
def mainReadInput : List Str → Validated
  | [] => { input_string := [], rest := [], errors := 0 }
  | input_string :: rest =>
    if input_string.isEmpty then { input_string := input_string, rest := rest, errors := 0 }
    else if input_string.all isspace then { input_string := [], rest := rest, errors := 0 }
    else
      let input_string := input_string.filter (fun c => !isspace c)
      if mainCheckSymbols input_string false then
        { input_string := input_string, rest := rest, errors := 0 }
      else if rest.isEmpty then
        { input_string := input_string, rest := [], errors := 1, forever := true }
      else
        let r := mainReadInput rest
        { r with errors := r.errors + 1 }

/-- The `for (char symbol: new_input_string)` loop of `run`. -/
def runCheckSymbols : Str → Bool → Bool
  | [], valid_input => valid_input
  | symbol :: rest, _ =>
    if symbol ≠ '0' ∧ symbol ≠ '1' then false else runCheckSymbols rest true

/-- The `while (!valid_input)` loop of `run` (lines 184 to 212) on the pieces of standard
input. A rejected piece that a newline ended is followed by the next call of
`std::getline`; a rejected last piece is read again for ever. -/
def runReadInput : List Str → Validated
  | [] => { input_string := [], rest := [], errors := 0 }
  | new_input_string :: rest =>
    if new_input_string.isEmpty then
      { input_string := new_input_string, rest := rest, errors := 0 }
    else if new_input_string.all isspace then
      { input_string := [], rest := rest, errors := 0 }
    else
      let new_input_string := new_input_string.filter (fun c => !isspace c)
      if runCheckSymbols new_input_string false then
        { input_string := new_input_string, rest := rest, errors := 0 }
      else if rest.isEmpty then
        { input_string := new_input_string, rest := [], errors := 1, forever := true }
      else
        let r := runReadInput rest
        { r with errors := r.errors + 1 }

/-! ## The run loop -/

/-- How the loop of `run` stops going round: the flag `halt` is set with the accept or
the reject message, or the validation loop of a replacement of the input never ends. -/
inductive Verdict where
  | ACCEPTED
  | REJECTED
  | NEVER_RETURNS
deriving DecidableEq, Repr

/-- The state after lines 228 to 249 of one iteration of the `while (!halt)` loop. -/
structure Step where
  cfg : Config
  out : List Output
  /-- The flag `halt`, with the message that set it: `none` while the loop goes on. -/
  verdict : Option Verdict
deriving DecidableEq, Repr

/-- The state after one iteration of the `while (!halt)` loop, or after its keyboard check. -/
structure Cycle where
  cfg : Config
  out : List Output
  /-- The flag `halt`, with the message that set it, or the validation loop that never
  ends: `none` while the loop of `run` goes on. -/
  verdict : Option Verdict
  /-- The lines of standard input not yet read. -/
  lines : List Str
deriving DecidableEq, Repr

/-- The constant `final_state` of `run`. -/
def final_state : Char := 'f'

/-- Lines 174 to 226 of `run`: the keyboard check and, on the key `h`, the replacement
of the input (validation loop, `initializeTape`, state `0`, `resetHead`). When the
validation loop never ends the configuration is left as it was and the output is the
prompt and the first error messages, the last of them written again without end. -/
def reseed (c : Config) (key : Option Char) (lines : List Str) : Cycle :=
  match key with
  | none => { cfg := c, out := [], verdict := none, lines := lines }
  | some halt_char =>
    if halt_char = 'h' then
      let r := runReadInput lines
      if r.forever then
        { cfg := c, out := Output.halted :: List.replicate r.errors Output.invalid,
          verdict := some Verdict.NEVER_RETURNS, lines := r.rest }
      else
        let c1 := initializeTape c r.input_string
        let c2 := { c1 with current_state := '0' }
        { cfg := resetHead c2, out := Output.halted :: List.replicate r.errors Output.invalid,
          verdict := none, lines := r.rest }
    else { cfg := c, out := [], verdict := none, lines := lines }

/-- Lines 228 to 231 of `run`: the tape after the end-of-tape check. -/
def extendTape (c : Config) : Config :=
  if c.read_write_head_index + 1 = c.tape.length then { c with tape := c.tape ++ ['B'] } else c

/-- Lines 228 to 249 of `run`: end-of-tape check, lookup, then accept, apply or reject.
The result is `none` when `tape[read_write_head_index+1]` is out of bounds. -/
def lookupApply (c : Config) : Option Step :=
  let c1 := extendTape c
  match c1.tape[c1.read_write_head_index + 1]? with
  | none => none
  | some symbol =>
    let transition := mapFind c1.transition_function (c1.current_state, symbol)
    if c1.current_state = final_state then
      some { cfg := c1, out := [Output.accepted], verdict := some Verdict.ACCEPTED }
    else
      match transition with
      | some ((new_state, new_tape_symbol), direction) =>
        let c2 := { c1 with current_state := new_state }
        let c3 := { c2 with tape := c2.tape.set (c2.read_write_head_index + 1) new_tape_symbol }
        some { cfg := moveHead c3 direction, out := [], verdict := none }
      | none =>
        some { cfg := c1, out := [Output.rejected], verdict := some Verdict.REJECTED }

/-- One iteration of the `while (!halt)` loop of `run`: `printID`, the keyboard check
with the possible replacement of the input, then lookup and accept, apply or reject. An
iteration whose validation loop never ends stops there, with the verdict
`NEVER_RETURNS`. -/
def cycle (c : Config) (key : Option Char) (lines : List Str) : Option Cycle :=
  let line := printID c c.current_state
  let p := reseed c key lines
  match p.verdict with
  | some v => some { cfg := p.cfg, out := line :: p.out, verdict := some v, lines := p.lines }
  | none =>
    match lookupApply p.cfg with
    | none => none
    | some s =>
      some { cfg := s.cfg, out := line :: p.out ++ s.out, verdict := s.verdict,
             lines := p.lines }

/-- The result of a run. -/
structure Run where
  cfg : Config
  out : List Output
  /-- The result `none` means that the loop was still going when the fuel ran out. -/
  verdict : Option Verdict
  /-- The number of iterations of the loop that were executed. -/
  cycles : Nat
  lines : List Str
deriving DecidableEq, Repr

/-- The function `run`, for at most `fuel` iterations of its loop; `keys` holds what the
keyboard check sees in each iteration (no key once the list is exhausted). -/
def run : Nat → Config → List (Option Char) → List Str → Option Run
  | 0, c, _, lines => some { cfg := c, out := [], verdict := none, cycles := 0, lines := lines }
  | fuel + 1, c, keys, lines =>
    match cycle c (keys.headD none) lines with
    | none => none
    | some s =>
      match s.verdict with
      | some v =>
        some { cfg := s.cfg, out := s.out, verdict := some v, cycles := 1, lines := s.lines }
      | none =>
        match run fuel s.cfg keys.tail s.lines with
        | none => none
        | some r => some { r with out := s.out ++ r.out, cycles := r.cycles + 1 }

/-- The configurations the program can be in at the top of the loop of `run`: the one
the two-argument constructor builds (a replacement of the input builds the same one),
and the one a loop iteration that does not halt leaves behind. -/
inductive Reachable (tf : TRANSITION_MAP) : Config → Prop where
  | construct (input_string : Str) : Reachable tf (construct tf input_string)
  | cycle (c : Config) (key : Option Char) (lines : List Str) (s : Cycle) :
      Reachable tf c → cycle c key lines = some s → s.verdict = none → Reachable tf s.cfg

/-! ## The specification side -/

/-- The validator as the specification words it: white space is removed from the raw
line; the line is accepted, with what remains as its result, when every remaining
character is `0` or `1`, and rejected otherwise. -/
def validate (raw : Str) : Option Str :=
  let stripped := raw.filter (fun c => !isspace c)
  if stripped.all (fun c => c == '0' || c == '1') then some stripped else none

/-- A piece of text made of white space only. -/
def IsBlank (s : Str) : Prop := ∀ x ∈ s, isspace x = true

/-- A well-formed rule line of the description: the five characters of `t`, none of them
white space, separated by white space, with optional white space around them, optionally
followed by a comment that starts with two slashes. The comment starts at the first pair
of slashes of the line, so a direction `/` is not glued to the comment. -/
def RuleLine (line : Str) (t : FiveTuple) : Prop :=
  ∃ s0 s1 s2 s3 s4 s5 cm : Str,
    IsBlank s0 ∧ IsBlank s1 ∧ IsBlank s2 ∧ IsBlank s3 ∧ IsBlank s4 ∧ IsBlank s5 ∧
    s1 ≠ [] ∧ s2 ≠ [] ∧ s3 ≠ [] ∧ s4 ≠ [] ∧
    isspace t.input_current_state = false ∧ isspace t.current_tape_symbol = false ∧
    isspace t.new_state = false ∧ isspace t.new_tape_symbol = false ∧
    isspace t.direction = false ∧
    (cm = [] ∨ ((∃ rest, cm = '/' :: '/' :: rest) ∧ (s5 = [] → t.direction ≠ '/'))) ∧
    line = s0 ++ t.input_current_state :: (s1 ++ t.current_tape_symbol :: (s2 ++
      t.new_state :: (s3 ++ t.new_tape_symbol :: (s4 ++ t.direction :: (s5 ++ cm)))))

/-- The key that a rule contributes to the map. -/
def FiveTuple.key (t : FiveTuple) : Key := (t.input_current_state, t.current_tape_symbol)

/-- The value that a rule contributes to the map. -/
def FiveTuple.value (t : FiveTuple) : Value := ((t.new_state, t.new_tape_symbol), t.direction)

/-- A line that table construction is specified on: empty, comment, or well-formed rule. -/
def DescriptionLine (line : Str) : Prop :=
  line = [] ∨ startsWithComment line = true ∨ ∃ t, RuleLine line t

/-! ## Example machines -/

/-- A map with the single rule `0 0 0 1 L`. -/
def leftTable : TRANSITION_MAP := [(('0', '0'), (('0', '1'), 'L'))]

/-- A map with the single rule `0 0 0 0 R`. -/
def rightTable : TRANSITION_MAP := [(('0', '0'), (('0', '0'), 'R'))]

/-- A map with the single rule `0 0 f 0 R`. -/
def acceptTable : TRANSITION_MAP := [(('0', '0'), (('f', '0'), 'R'))]

/-- Indeterminate values used in the examples. -/
def someValues : Nat → FiveTuple := fun _ => ⟨'?', '?', '?', '?', '?'⟩

/-- A configuration in the middle of a run, used in the examples. -/
def midConfig : Config :=
  { transition_function := rightTable, tape := ['B', '0', '1', 'B'], current_state := 'q',
    read_write_head_index := 2 }

/-- The configuration one iteration after the construction with `acceptTable` and input `0`. -/
def acceptedConfig : Config :=
  { transition_function := acceptTable, tape := ['B', '0', 'B'], current_state := 'f',
    read_write_head_index := 1 }

/-- The rule line `0 0 1 1 L`. -/
def ruleText : Str := ['0', ' ', '0', ' ', '1', ' ', '1', ' ', 'L']

/-- The comment line `// comment`. -/
def commentText : Str := ['/', '/', ' ', 'c', 'o', 'm', 'm', 'e', 'n', 't']

/-! ## The specification side, continued -/

/-- The trace line as the specification words it: the cells from the first non-blank
cell up to, but not including, the cell at index `head+1`; the state; the cells from
index `head+1` through the last non-blank cell. -/
def traceLineSpec (c : Config) : Output :=
  let first := find_first_not_of c.tape 'B'
  let last := find_last_not_of c.tape 'B' npos
  let left :=
    if first = npos then [] else (c.tape.take (c.read_write_head_index + 1)).drop first
  let right :=
    if last = npos then [] else (c.tape.take (last + 1)).drop (c.read_write_head_index + 1)
  Output.id left c.current_state right

/-- A symbol of the tape alphabet of the specification: `0`, `1` or the blank `B`. -/
def InAlphabet (x : Char) : Prop := x = '0' ∨ x = '1' ∨ x = 'B'

/-- The configurations at the top of the loop of `run` when the machine was constructed
on a validated input: the constructed one, and the one a loop iteration that does not
halt leaves behind. -/
inductive ReachableValidated (tf : TRANSITION_MAP) : Config → Prop where
  | construct (raw input_string : Str) :
      validate raw = some input_string → ReachableValidated tf (construct tf input_string)
  | cycle (c : Config) (key : Option Char) (lines : List Str) (s : Cycle) :
      ReachableValidated tf c → cycle c key lines = some s → s.verdict = none →
      ReachableValidated tf s.cfg

/-- The tape of a two-way-infinite machine that a configuration stands for, seen from the
scanned cell: `view c i` is the symbol `i` cells to the right of buffer index `head+1`
(to the left when `i` is negative), blank outside the buffer. -/
def view (c : Config) (i : Int) : Char :=
  if 0 ≤ (c.read_write_head_index : Int) + 1 + i then
    c.tape.getD ((c.read_write_head_index : Int) + 1 + i).toNat 'B'
  else 'B'

/-- One step of a standard two-way-infinite machine on a tape seen from the scanned cell:
write `w` on the scanned cell, then scan the right neighbour for `R`, the left neighbour
for `L`, the same cell for any other direction. -/
def standardStep (tape : Int → Char) (w d : Char) : Int → Char :=
  fun i =>
    if d = 'R' then Function.update tape 0 w (i + 1)
    else if d = 'L' then Function.update tape 0 w (i - 1)
    else Function.update tape 0 w i

/-! ## Example machines, continued -/

/-- A map with the single rule `0 0 0 B R`. -/
def blankingTable : TRANSITION_MAP := [(('0', '0'), (('0', 'B'), 'R'))]

/-- The configuration one iteration after the construction with `blankingTable` and
input `01`. -/
def blankedConfig : Config :=
  { transition_function := blankingTable, tape := ['B', 'B', '1', 'B'], current_state := '0',
    read_write_head_index := 1 }

/-- The description `0 0 0 0 R`, `0 1 0 1 R`, `0 B f B R`. -/
def scenarioLines : List Str :=
  [['0', ' ', '0', ' ', '0', ' ', '0', ' ', 'R'],
   ['0', ' ', '1', ' ', '0', ' ', '1', ' ', 'R'],
   ['0', ' ', 'B', ' ', 'f', ' ', 'B', ' ', 'R']]

/-- The map `('0','0') -> ('0','0',R)`, `('0','1') -> ('0','1',R)`, `('0','B') -> ('f','B',R)`. -/
def scenarioTable : TRANSITION_MAP :=
  [(('0', '0'), (('0', '0'), 'R')), (('0', '1'), (('0', '1'), 'R')),
   (('0', 'B'), (('f', 'B'), 'R'))]

/-- The rule line `0 0 0 X R`. -/
def xRuleText : Str := ['0', ' ', '0', ' ', '0', ' ', 'X', ' ', 'R']

/-- The rule line `0 0 0 0 R`. -/
def secondRuleText : Str := ['0', ' ', '0', ' ', '0', ' ', '0', ' ', 'R']

/-- A map with the single rule `0 0 0 1 S`. -/
def stayTable : TRANSITION_MAP := [(('0', '0'), (('0', '1'), 'S'))]

/-- The rules `0 0 1 0 R`, `1 B 2 B R`, `2 B 3 B R`, `3 B 4 B L`. -/
def sweepTable : TRANSITION_MAP :=
  [(('0', '0'), (('1', '0'), 'R')), (('1', 'B'), (('2', 'B'), 'R')),
   (('2', 'B'), (('3', 'B'), 'R')), (('3', 'B'), (('4', 'B'), 'L'))]

/-- The line `0 0 9`, with three characters only. -/
def shortRuleText : Str := ['0', ' ', '0', ' ', '9']

/-! ## Basic facts about the tape operations -/

theorem foldl_push_back (w t : List Char) :
    w.foldl (fun t symbol => t ++ [symbol]) t = t ++ w := by
  induction w generalizing t with
  | nil => simp
  | cons a w ih => simp [ih]

theorem initializeTape_tape (c : Config) (w : Str) :
    (initializeTape c w).tape = 'B' :: (w ++ ['B']) := by
  simp [initializeTape, foldl_push_back]

theorem subSizeT_one {n : Nat} (h : 0 < n) : subSizeT n 1 = n - 1 := by
  unfold subSizeT
  rw [if_pos (by omega)]

theorem construct_eq (tf : TRANSITION_MAP) (w : Str) :
    construct tf w =
      { transition_function := tf, tape := 'B' :: (w ++ ['B']), current_state := '0',
        read_write_head_index := 0 } := by
  simp [construct, resetHead, initializeTape, foldl_push_back]

theorem extendTape_fields (c : Config) :
    (extendTape c).transition_function = c.transition_function ∧
    (extendTape c).current_state = c.current_state ∧
    (extendTape c).read_write_head_index = c.read_write_head_index := by
  unfold extendTape
  split <;> simp

theorem extendTape_tape (c : Config) :
    (extendTape c).tape =
      c.tape ++ (if c.read_write_head_index + 1 = c.tape.length then ['B'] else []) := by
  unfold extendTape
  split <;> simp

theorem extendTape_bound (c : Config) (h : c.read_write_head_index < c.tape.length) :
    c.read_write_head_index + 1 < (extendTape c).tape.length := by
  rw [extendTape_tape]
  split <;> simp <;> omega

theorem moveHead_fields (c : Config) (d : Char) :
    (moveHead c d).transition_function = c.transition_function ∧
    (moveHead c d).current_state = c.current_state := by
  unfold moveHead
  repeat (first | split | simp)

theorem moveHead_tape (c : Config) (d : Char)
    (h : c.read_write_head_index + 1 < c.tape.length) :
    (moveHead c d).tape =
      (if d = 'L' ∧ c.read_write_head_index = 0 then ['B'] else []) ++ c.tape := by
  have h1 : subSizeT c.tape.length 1 = c.tape.length - 1 := subSizeT_one (by omega)
  unfold moveHead
  rw [h1]
  by_cases hR : d = 'R'
  · have hL : d ≠ 'L' := by rw [hR]; decide
    rw [if_pos hR, if_neg (by omega), if_pos (by omega)]
    simp [hL]
  · rw [if_neg hR]
    by_cases hL : d = 'L'
    · rw [if_pos hL]
      by_cases h0 : c.read_write_head_index = 0
      · simp [h0, hL]
      · rw [if_neg h0, if_pos (by omega)]
        simp [h0]
    · simp [hL]

theorem moveHead_head (c : Config) (d : Char)
    (h : c.read_write_head_index + 1 < c.tape.length) :
    (moveHead c d).read_write_head_index =
      if d = 'R' then c.read_write_head_index + 1
      else if d = 'L' then c.read_write_head_index - 1
      else c.read_write_head_index := by
  have h1 : subSizeT c.tape.length 1 = c.tape.length - 1 := subSizeT_one (by omega)
  unfold moveHead
  rw [h1]
  by_cases hR : d = 'R'
  · rw [if_pos hR, if_neg (by omega), if_pos (by omega), if_pos hR]
  · rw [if_neg hR, if_neg hR]
    by_cases hL : d = 'L'
    · rw [if_pos hL, if_pos hL]
      by_cases h0 : c.read_write_head_index = 0
      · simp [h0]
      · rw [if_neg h0, if_pos (by omega)]
    · rw [if_neg hL, if_neg hL]

/-! ## The three outcomes of the lookup -/

/-- The configuration after the two assignments of an applied transition, before `moveHead`. -/
theorem lookupApply_apply (c : Config) (symbol new_state new_tape_symbol direction : Char)
    (hsym : (extendTape c).tape[c.read_write_head_index + 1]? = some symbol)
    (hf : c.current_state ≠ 'f')
    (hfind : mapFind c.transition_function (c.current_state, symbol) =
      some ((new_state, new_tape_symbol), direction)) :
    lookupApply c = some
      { cfg := moveHead
          { transition_function := c.transition_function
            tape := (extendTape c).tape.set (c.read_write_head_index + 1) new_tape_symbol
            current_state := new_state
            read_write_head_index := c.read_write_head_index } direction
        out := []
        verdict := none } := by
  obtain ⟨e1, e2, e3⟩ := extendTape_fields c
  unfold lookupApply
  simp only [e1, e2, e3, hsym, hfind, final_state]
  rw [if_neg hf]

theorem lookupApply_accept (c : Config) (symbol : Char)
    (hsym : (extendTape c).tape[c.read_write_head_index + 1]? = some symbol)
    (hf : c.current_state = 'f') :
    lookupApply c = some
      { cfg := extendTape c, out := [Output.accepted], verdict := some Verdict.ACCEPTED } := by
  obtain ⟨e1, e2, e3⟩ := extendTape_fields c
  unfold lookupApply
  simp only [e1, e2, e3, hsym, final_state]
  rw [if_pos hf]

theorem lookupApply_reject (c : Config) (symbol : Char)
    (hsym : (extendTape c).tape[c.read_write_head_index + 1]? = some symbol)
    (hf : c.current_state ≠ 'f')
    (hfind : mapFind c.transition_function (c.current_state, symbol) = none) :
    lookupApply c = some
      { cfg := extendTape c, out := [Output.rejected], verdict := some Verdict.REJECTED } := by
  obtain ⟨e1, e2, e3⟩ := extendTape_fields c
  unfold lookupApply
  simp only [e1, e2, e3, hsym, hfind, final_state]
  rw [if_neg hf]

/-- The symbol read by the lookup exists as soon as the head is inside the tape. -/
theorem scanned_exists (c : Config) (h : c.read_write_head_index < c.tape.length) :
    ∃ symbol, (extendTape c).tape[c.read_write_head_index + 1]? = some symbol := by
  have hb := extendTape_bound c h
  exact ⟨(extendTape c).tape[c.read_write_head_index + 1], List.getElem?_eq_getElem hb⟩

/-- Every outcome of the lookup keeps the map, keeps the head inside the tape and does not
shorten the tape. -/
theorem lookupApply_inv (c : Config) (h : c.read_write_head_index < c.tape.length) :
    ∃ s, lookupApply c = some s ∧
      s.cfg.transition_function = c.transition_function ∧
      s.cfg.read_write_head_index < s.cfg.tape.length ∧
      c.tape.length ≤ s.cfg.tape.length := by
  obtain ⟨symbol, hsym⟩ := scanned_exists c h
  have hb := extendTape_bound c h
  obtain ⟨e1, e2, e3⟩ := extendTape_fields c
  have hlen : c.tape.length ≤ (extendTape c).tape.length := by
    rw [extendTape_tape]; simp
  by_cases hf : c.current_state = 'f'
  · refine ⟨_, lookupApply_accept c symbol hsym hf, e1, ?_, hlen⟩
    show (extendTape c).read_write_head_index < (extendTape c).tape.length
    rw [e3]; omega
  · cases hfind : mapFind c.transition_function (c.current_state, symbol) with
    | none =>
      refine ⟨_, lookupApply_reject c symbol hsym hf hfind, e1, ?_, hlen⟩
      show (extendTape c).read_write_head_index < (extendTape c).tape.length
      rw [e3]; omega
    | some v =>
      obtain ⟨⟨ns, w⟩, d⟩ := v
      have hb2 : c.read_write_head_index + 1 <
          ((extendTape c).tape.set (c.read_write_head_index + 1) w).length := by
        simpa using hb
      have hH := moveHead_head
        ⟨c.transition_function, (extendTape c).tape.set (c.read_write_head_index + 1) w, ns,
          c.read_write_head_index⟩ d hb2
      have hT := moveHead_tape
        ⟨c.transition_function, (extendTape c).tape.set (c.read_write_head_index + 1) w, ns,
          c.read_write_head_index⟩ d hb2
      refine ⟨_, lookupApply_apply c symbol ns w d hsym hf hfind, ?_, ?_, ?_⟩
      · exact (moveHead_fields _ d).1
      · simp only [hH, hT, List.length_append, List.length_set]
        split
        · omega
        · split <;> omega
      · simp only [hT, List.length_append, List.length_set]
        omega

theorem reseed_no_pause (c : Config) (key : Option Char) (lines : List Str)
    (hk : key ≠ some 'h') :
    reseed c key lines = { cfg := c, out := [], verdict := none, lines := lines } := by
  unfold reseed
  cases key with
  | none => rfl
  | some k =>
    have : k ≠ 'h' := fun e => hk (by rw [e])
    simp [this]

theorem reseed_pause (c : Config) (lines : List Str)
    (hend : (runReadInput lines).forever = false) :
    reseed c (some 'h') lines =
      { cfg := construct c.transition_function (runReadInput lines).input_string
        out := Output.halted :: List.replicate (runReadInput lines).errors Output.invalid
        verdict := none
        lines := (runReadInput lines).rest } := by
  simp [reseed, construct, resetHead, initializeTape, hend]

theorem reseed_forever (c : Config) (lines : List Str)
    (hnever : (runReadInput lines).forever = true) :
    reseed c (some 'h') lines =
      { cfg := c
        out := Output.halted :: List.replicate (runReadInput lines).errors Output.invalid
        verdict := some Verdict.NEVER_RETURNS
        lines := (runReadInput lines).rest } := by
  simp [reseed, hnever]

/-- After the keyboard check the configuration is the one before it, or a freshly
constructed one. -/
theorem reseed_cfg (c : Config) (key : Option Char) (lines : List Str) :
    (reseed c key lines).cfg = c ∨
      ∃ w, (reseed c key lines).cfg = construct c.transition_function w := by
  by_cases hk : key = some 'h'
  · cases hend : (runReadInput lines).forever with
    | false =>
      right
      rw [hk, reseed_pause c lines hend]
      exact ⟨_, rfl⟩
    | true =>
      left
      rw [hk, reseed_forever c lines hend]
  · left
    rw [reseed_no_pause c key lines hk]

/-- A loop iteration whose keyboard check returns goes on with the lookup. -/
theorem cycle_of_reseed (c : Config) (key : Option Char) (lines : List Str)
    (hv : (reseed c key lines).verdict = none) :
    cycle c key lines =
      (lookupApply (reseed c key lines).cfg).map (fun s =>
        { cfg := s.cfg
          out := printID c c.current_state :: (reseed c key lines).out ++ s.out
          verdict := s.verdict
          lines := (reseed c key lines).lines }) := by
  simp only [cycle, hv]
  cases lookupApply (reseed c key lines).cfg <;> rfl

/-- A loop iteration whose validation loop never ends stops after the keyboard check. -/
theorem cycle_of_reseed_stop (c : Config) (key : Option Char) (lines : List Str) (v : Verdict)
    (hv : (reseed c key lines).verdict = some v) :
    cycle c key lines =
      some { cfg := (reseed c key lines).cfg
             out := printID c c.current_state :: (reseed c key lines).out
             verdict := some v
             lines := (reseed c key lines).lines } := by
  simp only [cycle, hv]

/-- A loop iteration that goes on has gone through the lookup. -/
theorem cycle_running (c : Config) (key : Option Char) (lines : List Str) (s : Cycle)
    (h : cycle c key lines = some s) (hs : s.verdict = none) :
    (reseed c key lines).verdict = none ∧
    ∃ t, lookupApply (reseed c key lines).cfg = some t ∧ t.verdict = none ∧
      s = { cfg := t.cfg
            out := printID c c.current_state :: (reseed c key lines).out ++ t.out
            verdict := t.verdict
            lines := (reseed c key lines).lines } := by
  cases hv : (reseed c key lines).verdict with
  | some v =>
    rw [cycle_of_reseed_stop c key lines v hv] at h
    cases h
    cases hs
  | none =>
    rw [cycle_of_reseed c key lines hv] at h
    cases hl : lookupApply (reseed c key lines).cfg with
    | none => rw [hl] at h; cases h
    | some t =>
      rw [hl] at h
      cases h
      exact ⟨rfl, t, rfl, hs, rfl⟩

theorem cycle_no_pause (c : Config) (key : Option Char) (lines : List Str)
    (hk : key ≠ some 'h') :
    cycle c key lines =
      (lookupApply c).map (fun s =>
        { cfg := s.cfg, out := printID c c.current_state :: s.out, verdict := s.verdict,
          lines := lines }) := by
  have hv : (reseed c key lines).verdict = none := by
    rw [reseed_no_pause c key lines hk]
  rw [cycle_of_reseed c key lines hv, reseed_no_pause c key lines hk]
  cases lookupApply c <;> simp

/-- The invariant of the run loop: the map is the one built at construction and the head
is inside the tape. -/
theorem reachable_inv (tf : TRANSITION_MAP) (c : Config) (hr : Reachable tf c) :
    c.transition_function = tf ∧ c.read_write_head_index < c.tape.length := by
  induction hr with
  | construct w => simp [construct_eq]
  | cycle c key lines s _ hc hsv ih =>
    have hp : (reseed c key lines).cfg.transition_function = tf ∧
        (reseed c key lines).cfg.read_write_head_index <
          (reseed c key lines).cfg.tape.length := by
      rcases reseed_cfg c key lines with h | ⟨w, h⟩
      · rw [h]; exact ih
      · rw [h]; simp [construct_eq, ih.1]
    obtain ⟨s1, hs1, ht, hh, _⟩ := lookupApply_inv _ hp.2
    obtain ⟨_, t, ht1, _, rfl⟩ := cycle_running c key lines s hc hsv
    rw [hs1] at ht1
    cases ht1
    exact ⟨ht.trans hp.1, hh⟩

/-! ## C1: an applied transition writes exactly one cell -/

/-- Reading the tape after the write, `shift` cells further when a blank was prepended. -/
theorem written_tape_cells (T : List Char) (pre : List Char) (k : Nat) (w : Char)
    (hk : k < T.length) :
    (pre ++ T.set k w)[k + pre.length]? = some w ∧
    ∀ i, i ≠ k → (pre ++ T.set k w)[i + pre.length]? = T[i]? := by
  constructor
  · rw [List.getElem?_append_right (by omega)]
    simp [hk]
  · intro i hi
    rw [List.getElem?_append_right (by omega)]
    simp [List.getElem?_set, Ne.symm hi]

/-- C1: in a reachable configuration whose state is not `f` and whose map has an entry
`(new_state, new_tape_symbol, direction)` for the current state and the symbol at index
`head+1` (read after the end-of-tape check), the loop body applies the transition: the
state becomes `new_state`, the map is unchanged, and the new tape is the old one with
the cell of index `head+1` set to `new_tape_symbol`, behind one new blank when the move
is `L` at head `0`. So the written cell holds `new_tape_symbol` and every other cell
that existed before keeps its symbol, at its index or one further when the blank was
prepended. The same holds for a whole loop iteration in which the key `h` is not read. -/
theorem C1_transition_writes_one_cell (tf : TRANSITION_MAP) (c : Config)
    (symbol new_state new_tape_symbol direction : Char)
    (hr : Reachable tf c) (hf : c.current_state ≠ 'f')
    (hsym : (extendTape c).tape[c.read_write_head_index + 1]? = some symbol)
    (hfind : mapFind c.transition_function (c.current_state, symbol) =
      some ((new_state, new_tape_symbol), direction)) :
    ∃ s, lookupApply c = some s ∧ s.verdict = none ∧
      s.cfg.current_state = new_state ∧
      s.cfg.transition_function = c.transition_function ∧
      s.cfg.tape =
        (if direction = 'L' ∧ c.read_write_head_index = 0 then ['B'] else []) ++
          (extendTape c).tape.set (c.read_write_head_index + 1) new_tape_symbol ∧
      s.cfg.tape[c.read_write_head_index + 1 +
        (if direction = 'L' ∧ c.read_write_head_index = 0 then 1 else 0)]? =
          some new_tape_symbol ∧
      (∀ i, i < c.tape.length → i ≠ c.read_write_head_index + 1 →
        s.cfg.tape[i + (if direction = 'L' ∧ c.read_write_head_index = 0 then 1 else 0)]? =
          c.tape[i]?) ∧
      ∀ key lines, key ≠ some 'h' →
        ∃ s', cycle c key lines = some s' ∧ s'.cfg = s.cfg ∧ s'.verdict = none := by
  have hb := extendTape_bound c (reachable_inv tf c hr).2
  have hb2 : c.read_write_head_index + 1 <
      ((extendTape c).tape.set (c.read_write_head_index + 1) new_tape_symbol).length := by
    simpa using hb
  have hT := moveHead_tape
    ⟨c.transition_function,
      (extendTape c).tape.set (c.read_write_head_index + 1) new_tape_symbol, new_state,
      c.read_write_head_index⟩ direction hb2
  have hF := moveHead_fields
    ⟨c.transition_function,
      (extendTape c).tape.set (c.read_write_head_index + 1) new_tape_symbol, new_state,
      c.read_write_head_index⟩ direction
  have hA := lookupApply_apply c symbol new_state new_tape_symbol direction hsym hf hfind
  have hlen : (if direction = 'L' ∧ c.read_write_head_index = 0 then 1 else 0) =
      (if direction = 'L' ∧ c.read_write_head_index = 0 then ['B'] else []).length := by
    split <;> rfl
  obtain ⟨hw, ho⟩ := written_tape_cells (extendTape c).tape
    (if direction = 'L' ∧ c.read_write_head_index = 0 then ['B'] else [])
    (c.read_write_head_index + 1) new_tape_symbol hb
  refine ⟨_, hA, rfl, hF.2, hF.1, hT, ?_, ?_, ?_⟩
  · rw [hT, hlen]
    exact hw
  · intro i hi hne
    rw [hT, hlen, ho i hne, extendTape_tape, List.getElem?_append_left hi]
  · intro key lines hk
    rw [cycle_no_pause c key lines hk, hA]
    exact ⟨_, rfl, rfl, rfl⟩

/-! ## Facts about whole runs -/

theorem lookupApply_some (c : Config) (s : Step) (h : lookupApply c = some s) :
    ∃ symbol, (extendTape c).tape[c.read_write_head_index + 1]? = some symbol := by
  cases hsym : (extendTape c).tape[c.read_write_head_index + 1]? with
  | some symbol => exact ⟨symbol, rfl⟩
  | none =>
    obtain ⟨_, _, e3⟩ := extendTape_fields c
    simp [lookupApply, e3, hsym] at h

/-- What the lookup writes: nothing when the loop goes on, one message when it halts. -/
theorem lookupApply_out (c : Config) (s : Step) (h : lookupApply c = some s) :
    (s.verdict = none ∧ s.out = []) ∨
    (s.verdict = some Verdict.ACCEPTED ∧ s.out = [Output.accepted] ∧
      c.current_state = 'f') ∨
    (s.verdict = some Verdict.REJECTED ∧ s.out = [Output.rejected] ∧
      c.current_state ≠ 'f') := by
  obtain ⟨symbol, hsym⟩ := lookupApply_some c s h
  by_cases hf : c.current_state = 'f'
  · rw [lookupApply_accept c symbol hsym hf] at h
    cases h
    exact Or.inr (Or.inl ⟨rfl, rfl, hf⟩)
  · cases hfind : mapFind c.transition_function (c.current_state, symbol) with
    | none =>
      rw [lookupApply_reject c symbol hsym hf hfind] at h
      cases h
      exact Or.inr (Or.inr ⟨rfl, rfl, hf⟩)
    | some v =>
      obtain ⟨⟨ns, w⟩, d⟩ := v
      rw [lookupApply_apply c symbol ns w d hsym hf hfind] at h
      cases h
      exact Or.inl ⟨rfl, rfl⟩

theorem reseed_out (c : Config) (key : Option Char) (lines : List Str) :
    Output.accepted ∉ (reseed c key lines).out ∧ Output.rejected ∉ (reseed c key lines).out := by
  by_cases hk : key = some 'h'
  · cases hend : (runReadInput lines).forever with
    | false =>
      rw [hk, reseed_pause c lines hend]
      simp [List.mem_replicate]
    | true =>
      rw [hk, reseed_forever c lines hend]
      simp [List.mem_replicate]
  · rw [reseed_no_pause c key lines hk]
    simp

/-- A loop iteration that does not halt writes neither the accept nor the reject message. -/
theorem cycle_running_out (c : Config) (key : Option Char) (lines : List Str) (s : Cycle)
    (h : cycle c key lines = some s) (hv : s.verdict = none) :
    Output.accepted ∉ s.out ∧ Output.rejected ∉ s.out := by
  obtain ⟨_, t, hl, hv2, rfl⟩ := cycle_running c key lines s h hv
  have ho := lookupApply_out _ t hl
  have ht : t.out = [] := by
    rcases ho with ⟨_, h2⟩ | ⟨h1, _⟩ | ⟨h1, _⟩
    · exact h2
    · rw [hv2] at h1; cases h1
    · rw [hv2] at h1; cases h1
  obtain ⟨r1, r2⟩ := reseed_out c key lines
  simp [ht, r1, r2, printID]

theorem run_succ_halt (fuel : Nat) (c : Config) (keys : List (Option Char)) (lines : List Str)
    (s : Cycle) (v : Verdict)
    (h : cycle c (keys.headD none) lines = some s) (hv : s.verdict = some v) :
    run (fuel + 1) c keys lines =
      some { cfg := s.cfg, out := s.out, verdict := some v, cycles := 1, lines := s.lines } := by
  simp only [run, h, hv]

theorem run_succ_running (fuel : Nat) (c : Config) (keys : List (Option Char))
    (lines : List Str) (s : Cycle)
    (h : cycle c (keys.headD none) lines = some s) (hv : s.verdict = none) :
    run (fuel + 1) c keys lines =
      (run fuel s.cfg keys.tail s.lines).map
        (fun r => { r with out := s.out ++ r.out, cycles := r.cycles + 1 }) := by
  simp only [run, h, hv]
  cases run fuel s.cfg keys.tail s.lines <;> rfl

/-- A run that is still going after `n` iterations: shape of its first iteration. -/
theorem run_succ_inv (n : Nat) (c : Config) (keys : List (Option Char)) (lines : List Str)
    (r : Run) (h : run (n + 1) c keys lines = some r) (hv : r.verdict = none) :
    ∃ s r0, cycle c (keys.headD none) lines = some s ∧ s.verdict = none ∧
      run n s.cfg keys.tail s.lines = some r0 ∧ r0.verdict = none ∧
      r = { r0 with out := s.out ++ r0.out, cycles := r0.cycles + 1 } := by
  cases hc : cycle c (keys.headD none) lines with
  | none => simp only [run, hc] at h; cases h
  | some s =>
    cases hs : s.verdict with
    | some v =>
      rw [run_succ_halt n c keys lines s v hc hs] at h
      cases h
      cases hv
    | none =>
      rw [run_succ_running n c keys lines s hc hs] at h
      cases h0 : run n s.cfg keys.tail s.lines with
      | none => simp [h0] at h
      | some r0 =>
        simp only [h0, Option.map_some'] at h
        cases h
        exact ⟨s, r0, rfl, hs, h0, hv, rfl⟩

/-- A run that is still going after `n` iterations has executed `n` of them, is in a
reachable configuration and has written neither the accept nor the reject message. -/
theorem run_running (tf : TRANSITION_MAP) (n : Nat) :
    ∀ (c : Config) (keys : List (Option Char)) (lines : List Str) (r : Run),
      Reachable tf c → run n c keys lines = some r → r.verdict = none →
      Reachable tf r.cfg ∧ r.cycles = n ∧ Output.accepted ∉ r.out ∧ Output.rejected ∉ r.out := by
  induction n with
  | zero =>
    intro c keys lines r hr h _
    simp only [run] at h
    cases h
    exact ⟨hr, rfl, by simp, by simp⟩
  | succ n ih =>
    intro c keys lines r hr h hv
    obtain ⟨s, r0, hc, hs, h0, hv0, rfl⟩ := run_succ_inv n c keys lines r h hv
    obtain ⟨a1, a2, a3, a4⟩ :=
      ih s.cfg keys.tail s.lines r0 (Reachable.cycle c _ lines s hr hc hs) h0 hv0
    obtain ⟨b1, b2⟩ := cycle_running_out c _ lines s hc hs
    refine ⟨a1, by simp [a2], ?_, ?_⟩
    · simp [a3, b1]
    · simp [a4, b2]

/-- Running `m` more iterations after `n` iterations that did not halt. -/
theorem run_add (n m : Nat) :
    ∀ (c : Config) (keys : List (Option Char)) (lines : List Str) (r : Run),
      run n c keys lines = some r → r.verdict = none →
      run (n + m) c keys lines =
        (run m r.cfg (keys.drop n) r.lines).map
          (fun q => { q with out := r.out ++ q.out, cycles := q.cycles + r.cycles }) := by
  induction n with
  | zero =>
    intro c keys lines r h _
    simp only [run] at h
    cases h
    simp only [Nat.zero_add, List.drop_zero, List.nil_append, Nat.add_zero]
    cases run m c keys lines <;> rfl
  | succ n ih =>
    intro c keys lines r h hv
    obtain ⟨s, r0, hc, hs, h0, hv0, rfl⟩ := run_succ_inv n c keys lines r h hv
    have e : n + 1 + m = (n + m) + 1 := by omega
    rw [e, run_succ_running (n + m) c keys lines s hc hs, ih s.cfg keys.tail s.lines r0 h0 hv0]
    have hd : keys.drop (n + 1) = keys.tail.drop n := by
      cases keys <;> simp
    rw [hd]
    cases run m r0.cfg (keys.tail.drop n) r0.lines with
    | none => rfl
    | some q => simp [Nat.add_assoc]

/-! ## C2, C3: the two ways to halt -/

theorem extendTape_cells (c : Config) (i : Nat) (hi : i < c.tape.length) :
    (extendTape c).tape[i]? = c.tape[i]? := by
  rw [extendTape_tape, List.getElem?_append_left hi]

/-- A halting outcome of the lookup ends the run in the iteration that reaches it. -/
theorem run_halts_now (fuel : Nat) (c : Config) (keys : List (Option Char)) (lines : List Str)
    (s : Step) (v : Verdict) (hk : keys.headD none ≠ some 'h')
    (hs : lookupApply c = some s) (hv : s.verdict = some v) :
    run (fuel + 1) c keys lines =
      some { cfg := s.cfg, out := printID c c.current_state :: s.out, verdict := some v,
             cycles := 1, lines := lines } := by
  have hc := cycle_no_pause c (keys.headD none) lines hk
  rw [hs] at hc
  exact run_succ_halt fuel c keys lines _ v hc hv

/-- C2: in a reachable configuration whose state is `f` the lookup part of the loop body
halts with ACCEPTED whatever the map holds, writes the accept message once and nothing
else, leaves state, head index and map as they were and overwrites no cell (the tape is
the old one, followed by the blank of the end-of-tape check when `head+1` was its
length). A run whose keyboard check does not read `h` in that iteration therefore ends
there; and a run that is in state `f` after `n` iterations that applied a transition
halts ACCEPTED in iteration `n+1`, with the accept message written once in the whole
output. -/
theorem C2_acceptance_priority (tf : TRANSITION_MAP) :
    (∀ c : Config, Reachable tf c → c.current_state = 'f' →
      ∃ s, lookupApply c = some s ∧ s.verdict = some Verdict.ACCEPTED ∧
        s.out = [Output.accepted] ∧ s.out.count Output.accepted = 1 ∧
        s.cfg.current_state = c.current_state ∧
        s.cfg.read_write_head_index = c.read_write_head_index ∧
        s.cfg.transition_function = c.transition_function ∧
        s.cfg.tape =
          c.tape ++ (if c.read_write_head_index + 1 = c.tape.length then ['B'] else []) ∧
        (∀ i, i < c.tape.length → s.cfg.tape[i]? = c.tape[i]?) ∧
        ∀ (fuel : Nat) (keys : List (Option Char)) (lines : List Str),
          keys.headD none ≠ some 'h' →
          run (fuel + 1) c keys lines =
            some { cfg := s.cfg, out := [printID c c.current_state, Output.accepted],
                   verdict := some Verdict.ACCEPTED, cycles := 1, lines := lines }) ∧
    (∀ (n fuel : Nat) (c0 : Config) (keys : List (Option Char)) (lines : List Str) (r : Run),
      Reachable tf c0 → run n c0 keys lines = some r → r.verdict = none →
      r.cfg.current_state = 'f' → (keys.drop n).headD none ≠ some 'h' →
      ∃ q, run (n + (fuel + 1)) c0 keys lines = some q ∧
        q.verdict = some Verdict.ACCEPTED ∧ q.cycles = n + 1 ∧
        q.out.count Output.accepted = 1 ∧ q.cfg.current_state = 'f') := by
  have part1 : ∀ c : Config, Reachable tf c → c.current_state = 'f' →
      lookupApply c = some
        { cfg := extendTape c, out := [Output.accepted], verdict := some Verdict.ACCEPTED } := by
    intro c hr hf
    obtain ⟨symbol, hsym⟩ := scanned_exists c (reachable_inv tf c hr).2
    exact lookupApply_accept c symbol hsym hf
  constructor
  · intro c hr hf
    obtain ⟨e1, e2, e3⟩ := extendTape_fields c
    refine ⟨_, part1 c hr hf, rfl, rfl, by simp, e2, e3, e1, extendTape_tape c,
      fun i hi => extendTape_cells c i hi, ?_⟩
    intro fuel keys lines hk
    exact run_halts_now fuel c keys lines _ Verdict.ACCEPTED hk (part1 c hr hf) rfl
  · intro n fuel c0 keys lines r hr hrun hv hf hk
    obtain ⟨a1, a2, a3, _⟩ := run_running tf n c0 keys lines r hr hrun hv
    obtain ⟨e1, e2, e3⟩ := extendTape_fields r.cfg
    rw [run_add n (fuel + 1) c0 keys lines r hrun hv,
      run_halts_now fuel r.cfg (keys.drop n) r.lines _ Verdict.ACCEPTED hk (part1 r.cfg a1 hf) rfl]
    refine ⟨_, rfl, rfl, ?_, ?_, ?_⟩
    · simp [a2, Nat.add_comm]
    · simp [List.count_append, List.count_eq_zero.mpr a3, printID]
    · show (extendTape r.cfg).current_state = 'f'
      rw [e2, hf]

/-- C3: in a reachable configuration whose state is not `f` and whose map has no entry
for the current state and the symbol at index `head+1`, the lookup part of the loop body
halts with REJECTED, writes the reject message, leaves state, head index and map as they
were and overwrites no cell. A run whose keyboard check does not read `h` in that
iteration ends in that very iteration, whatever the number of iterations allowed. -/
theorem C3_no_transition_rejects (tf : TRANSITION_MAP) (c : Config)
    (hr : Reachable tf c) (hf : c.current_state ≠ 'f')
    (hfind : ∀ symbol, (extendTape c).tape[c.read_write_head_index + 1]? = some symbol →
      mapFind c.transition_function (c.current_state, symbol) = none) :
    ∃ s, lookupApply c = some s ∧ s.verdict = some Verdict.REJECTED ∧
      s.out = [Output.rejected] ∧
      s.cfg.current_state = c.current_state ∧
      s.cfg.read_write_head_index = c.read_write_head_index ∧
      s.cfg.transition_function = c.transition_function ∧
      s.cfg.tape =
        c.tape ++ (if c.read_write_head_index + 1 = c.tape.length then ['B'] else []) ∧
      (∀ i, i < c.tape.length → s.cfg.tape[i]? = c.tape[i]?) ∧
      ∀ (fuel : Nat) (keys : List (Option Char)) (lines : List Str),
        keys.headD none ≠ some 'h' →
        run (fuel + 1) c keys lines =
          some { cfg := s.cfg, out := [printID c c.current_state, Output.rejected],
                 verdict := some Verdict.REJECTED, cycles := 1, lines := lines } := by
  obtain ⟨e1, e2, e3⟩ := extendTape_fields c
  obtain ⟨symbol, hsym⟩ := scanned_exists c (reachable_inv tf c hr).2
  have hA := lookupApply_reject c symbol hsym hf (hfind symbol hsym)
  refine ⟨_, hA, rfl, rfl, e2, e3, e1, extendTape_tape c,
    fun i hi => extendTape_cells c i hi, ?_⟩
  intro fuel keys lines hk
  exact run_halts_now fuel c keys lines _ Verdict.REJECTED hk hA rfl

/-! ## C4: the head stays inside the tape and the tape does not shrink -/

/-- C4: in every reachable configuration (constructed, re-seeded, or left by a loop
iteration) the head index is inside the tape; after the end-of-tape check `head+1` is
inside the tape, so the read and the write of `tape[head+1]` are in bounds and the
lookup part of the loop body is defined; after it the head index is again inside the
tape and the tape is not shorter. The same holds from the configuration that the
keyboard check leaves, so every loop iteration is defined, ends with the head inside
the tape, and does not shorten the tape unless it replaced the input. -/
theorem C4_indices_valid_tape_grows (tf : TRANSITION_MAP) (c : Config)
    (hr : Reachable tf c) :
    c.read_write_head_index < c.tape.length ∧
    (extendTape c).read_write_head_index + 1 < (extendTape c).tape.length ∧
    (∃ s, lookupApply c = some s ∧
      s.cfg.read_write_head_index < s.cfg.tape.length ∧
      c.tape.length ≤ s.cfg.tape.length) ∧
    ∀ (key : Option Char) (lines : List Str),
      (reseed c key lines).cfg.read_write_head_index < (reseed c key lines).cfg.tape.length ∧
      (extendTape (reseed c key lines).cfg).read_write_head_index + 1 <
        (extendTape (reseed c key lines).cfg).tape.length ∧
      ∃ s, cycle c key lines = some s ∧
        s.cfg.read_write_head_index < s.cfg.tape.length ∧
        (reseed c key lines).cfg.tape.length ≤ s.cfg.tape.length ∧
        (key ≠ some 'h' → c.tape.length ≤ s.cfg.tape.length) := by
  have hi := (reachable_inv tf c hr).2
  refine ⟨hi, ?_, ?_, ?_⟩
  · rw [(extendTape_fields c).2.2]
    exact extendTape_bound c hi
  · obtain ⟨s, h1, _, h3, h4⟩ := lookupApply_inv c hi
    exact ⟨s, h1, h3, h4⟩
  · intro key lines
    have hp : (reseed c key lines).cfg.read_write_head_index <
        (reseed c key lines).cfg.tape.length := by
      rcases reseed_cfg c key lines with h | ⟨w, h⟩
      · rw [h]; exact hi
      · rw [h]; simp [construct_eq]
    refine ⟨hp, ?_, ?_⟩
    · rw [(extendTape_fields _).2.2]
      exact extendTape_bound _ hp
    · cases hv : (reseed c key lines).verdict with
      | none =>
        obtain ⟨s, h1, _, h3, h4⟩ := lookupApply_inv _ hp
        refine ⟨⟨s.cfg, printID c c.current_state :: (reseed c key lines).out ++ s.out,
          s.verdict, (reseed c key lines).lines⟩,
          by rw [cycle_of_reseed c key lines hv, h1]; rfl, h3, h4, ?_⟩
        intro hk
        rw [reseed_no_pause c key lines hk] at h4
        exact h4
      | some v =>
        refine ⟨_, cycle_of_reseed_stop c key lines v hv, hp, Nat.le_refl _, ?_⟩
        intro hk
        show c.tape.length ≤ (reseed c key lines).cfg.tape.length
        rw [reseed_no_pause c key lines hk]

/-! ## C5, C6: the tape operations -/

/-- C5: on a tape with the head index inside it (so the tape is not empty), `moveHead`
with `R` at the last index appends one `B` and advances the head; with `R` before the
last index it advances the head and leaves the tape alone; with `L` at index `0` it
prepends one `B` and leaves the head at `0`; with `L` at a positive index it moves the
head back by one and leaves the tape alone. -/
theorem C5_moveHead_contract (c : Config) (hh : c.read_write_head_index < c.tape.length) :
    c.tape ≠ [] ∧
    (c.read_write_head_index = c.tape.length - 1 →
      moveHead c 'R' = { c with tape := c.tape ++ ['B'],
                                read_write_head_index := c.read_write_head_index + 1 }) ∧
    (c.read_write_head_index < c.tape.length - 1 →
      moveHead c 'R' = { c with read_write_head_index := c.read_write_head_index + 1 }) ∧
    (c.read_write_head_index = 0 →
      moveHead c 'L' = { c with tape := 'B' :: c.tape, read_write_head_index := 0 }) ∧
    (0 < c.read_write_head_index →
      moveHead c 'L' = { c with read_write_head_index := c.read_write_head_index - 1 }) := by
  have h1 : subSizeT c.tape.length 1 = c.tape.length - 1 := subSizeT_one (by omega)
  have hLR : ('L' : Char) ≠ 'R' := by decide
  refine ⟨?_, ?_, ?_, ?_, ?_⟩
  · intro h
    rw [h] at hh
    simp at hh
  · intro h
    unfold moveHead
    rw [h1, if_pos rfl, if_pos h]
  · intro h
    unfold moveHead
    rw [h1, if_pos rfl, if_neg (by omega), if_pos h]
  · intro h
    unfold moveHead
    rw [if_neg hLR, if_pos rfl, if_pos h]
  · intro h
    unfold moveHead
    rw [if_neg hLR, if_pos rfl, if_neg (by omega), if_pos h]

/-- C6: whatever the tape held before, `initializeTape w` leaves the tape equal to `B`,
then the characters of `w` in order, then `B`; its length is `|w| + 2`, it does not
depend on the prior configuration, and the other members are untouched. -/
theorem C6_initializeTape (c : Config) (w : Str) :
    (initializeTape c w).tape = ['B'] ++ w ++ ['B'] ∧
    (initializeTape c w).tape.length = w.length + 2 ∧
    (∀ c2 : Config, (initializeTape c2 w).tape = (initializeTape c w).tape) ∧
    (initializeTape c w).transition_function = c.transition_function ∧
    (initializeTape c w).current_state = c.current_state ∧
    (initializeTape c w).read_write_head_index = c.read_write_head_index := by
  refine ⟨?_, ?_, ?_, rfl, rfl, rfl⟩
  · rw [initializeTape_tape]; simp
  · rw [initializeTape_tape]; simp
  · intro c2
    rw [initializeTape_tape, initializeTape_tape]

/-! ## C7: input validation -/

theorem mainCheckSymbols_true (s : Str) :
    mainCheckSymbols s true = s.all (fun c => c == '0' || c == '1') := by
  induction s with
  | nil => rfl
  | cons a s ih =>
    by_cases h : a ≠ '0' ∧ a ≠ '1'
    · simp [mainCheckSymbols, h.1, h.2]
    · have h2 : a = '0' ∨ a = '1' := by
        by_cases h0 : a = '0'
        · exact Or.inl h0
        · exact Or.inr (by_contra fun h1 => h ⟨h0, h1⟩)
      rw [mainCheckSymbols, if_neg h, ih]
      rcases h2 with h2 | h2 <;> simp [h2]

theorem mainCheckSymbols_false (s : Str) (hs : s ≠ []) :
    mainCheckSymbols s false = s.all (fun c => c == '0' || c == '1') := by
  cases s with
  | nil => exact absurd rfl hs
  | cons a s =>
    have h := mainCheckSymbols_true (a :: s)
    simp only [mainCheckSymbols] at h ⊢
    exact h

theorem runCheckSymbols_eq (s : Str) (b : Bool) :
    runCheckSymbols s b = mainCheckSymbols s b := by
  induction s generalizing b with
  | nil => rfl
  | cons a s ih => simp only [runCheckSymbols, mainCheckSymbols, ih]

theorem runReadInput_eq (lines : List Str) : runReadInput lines = mainReadInput lines := by
  induction lines with
  | nil => rfl
  | cons line rest ih => simp only [runReadInput, mainReadInput, ih, runCheckSymbols_eq]

theorem filter_isspace_nil (line : Str) (h : line.all isspace = true) :
    line.filter (fun c => !isspace c) = [] := by
  rw [List.filter_eq_nil_iff]
  intro a ha
  rw [List.all_eq_true] at h
  simp [h a ha]

theorem filter_isspace_ne_nil (line : Str) (h : ¬ line.all isspace = true) :
    line.filter (fun c => !isspace c) ≠ [] := by
  intro hnil
  apply h
  rw [List.filter_eq_nil_iff] at hnil
  rw [List.all_eq_true]
  intro a ha
  simpa using hnil a ha

/-- The validation loop of `main` on its first line, in terms of `validate`. -/
theorem mainReadInput_cons (line : Str) (rest : List Str) :
    mainReadInput (line :: rest) =
      match validate line with
      | some w => { input_string := w, rest := rest, errors := 0 }
      | none =>
        if rest.isEmpty then
          { input_string := line.filter (fun c => !isspace c), rest := [], errors := 1,
            forever := true }
        else
          { input_string := (mainReadInput rest).input_string
            rest := (mainReadInput rest).rest
            errors := (mainReadInput rest).errors + 1
            forever := (mainReadInput rest).forever } := by
  by_cases he : line = []
  · subst he
    simp [mainReadInput, validate]
  · have he2 : line.isEmpty = false := by
      cases line with
      | nil => exact absurd rfl he
      | cons a l => rfl
    by_cases hs : line.all isspace = true
    · have hf := filter_isspace_nil line hs
      simp only [mainReadInput, he2, hs, validate, hf]
      simp
    · have hf := filter_isspace_ne_nil line hs
      simp only [mainReadInput, he2, hs, validate, mainCheckSymbols_false _ hf]
      cases hv : (line.filter (fun c => !isspace c)).all (fun c => c == '0' || c == '1') <;>
        simp

theorem validate_of_symbols (line : Str)
    (h : ∀ c ∈ line.filter (fun c => !isspace c), c = '0' ∨ c = '1') :
    validate line = some (line.filter (fun c => !isspace c)) := by
  have : (line.filter (fun c => !isspace c)).all (fun c => c == '0' || c == '1') = true := by
    rw [List.all_eq_true]
    intro a ha
    rcases h a ha with h | h <;> simp [h]
  simp only [validate, this]
  rfl

theorem validate_of_other_symbol (line : Str)
    (h : ¬ ∀ c ∈ line.filter (fun c => !isspace c), c = '0' ∨ c = '1') :
    validate line = none := by
  have : (line.filter (fun c => !isspace c)).all (fun c => c == '0' || c == '1') = false := by
    rw [Bool.eq_false_iff]
    intro hall
    apply h
    intro a ha
    rw [List.all_eq_true] at hall
    simpa using hall a ha
  simp only [validate, this]
  rfl

/-- The validation loop never ends exactly when the input is not at its end and every
piece of it is rejected: the last piece, which no newline ends, is then read for ever. -/
theorem mainReadInput_forever (lines : List Str) :
    (mainReadInput lines).forever = true ↔ lines ≠ [] ∧ ∀ l ∈ lines, validate l = none := by
  induction lines with
  | nil => simp [mainReadInput]
  | cons line rest ih =>
    rw [mainReadInput_cons]
    cases hv : validate line with
    | some w => simp [hv]
    | none =>
      cases rest with
      | nil => simp [hv]
      | cons next more =>
        simp only [List.isEmpty_cons, Bool.false_eq_true, if_false, ih]
        simp [hv]

/-- C7: the validation loop of `run` computes the same function as the one of `main`. On
a piece of the input it stops exactly when, once white space is removed, every remaining
character is `0` or `1`, and its result is then the raw line without its white space; an
empty or all white space line is accepted with the empty result, and so is the end of
the input; a line with another character is rejected (one error message) and what
follows it decides the result. When nothing follows it, because the input ends there
without a newline, the same line is rejected again without end: the loop never ends
exactly when every piece of the input is rejected. -/
theorem C7_validation :
    (∀ lines : List Str, runReadInput lines = mainReadInput lines) ∧
    (∀ (line : Str) (rest : List Str),
      (∀ c ∈ line.filter (fun c => !isspace c), c = '0' ∨ c = '1') →
      mainReadInput (line :: rest) =
        { input_string := line.filter (fun c => !isspace c), rest := rest, errors := 0 } ∧
      validate line = some (line.filter (fun c => !isspace c))) ∧
    (∀ (line next : Str) (rest : List Str),
      (¬ ∀ c ∈ line.filter (fun c => !isspace c), c = '0' ∨ c = '1') →
      mainReadInput (line :: next :: rest) =
        { input_string := (mainReadInput (next :: rest)).input_string
          rest := (mainReadInput (next :: rest)).rest
          errors := (mainReadInput (next :: rest)).errors + 1
          forever := (mainReadInput (next :: rest)).forever } ∧
      validate line = none) ∧
    (∀ line : Str,
      (¬ ∀ c ∈ line.filter (fun c => !isspace c), c = '0' ∨ c = '1') →
      mainReadInput [line] =
        { input_string := line.filter (fun c => !isspace c), rest := [], errors := 1,
          forever := true }) ∧
    (∀ lines : List Str,
      (mainReadInput lines).forever = true ↔ lines ≠ [] ∧ ∀ l ∈ lines, validate l = none) ∧
    (∀ (line : Str) (rest : List Str), line.all isspace = true →
      mainReadInput (line :: rest) = { input_string := [], rest := rest, errors := 0 }) ∧
    (∀ rest : List Str,
      mainReadInput ([] :: rest) = { input_string := [], rest := rest, errors := 0 }) ∧
    mainReadInput [] = { input_string := [], rest := [], errors := 0 } := by
  have hblank : ∀ (line : Str) (rest : List Str), line.all isspace = true →
      mainReadInput (line :: rest) = { input_string := [], rest := rest, errors := 0 } := by
    intro line rest h
    have hv := validate_of_symbols line (by rw [filter_isspace_nil line h]; simp)
    rw [mainReadInput_cons, hv, filter_isspace_nil line h]
  refine ⟨runReadInput_eq, ?_, ?_, ?_, mainReadInput_forever, hblank,
    fun rest => hblank [] rest rfl, rfl⟩
  · intro line rest h
    rw [mainReadInput_cons, validate_of_symbols line h]
    exact ⟨rfl, rfl⟩
  · intro line next rest h
    rw [mainReadInput_cons, validate_of_other_symbol line h]
    exact ⟨rfl, rfl⟩
  · intro line h
    rw [mainReadInput_cons, validate_of_other_symbol line h]
    rfl

/-! ## C9: replacing the input -/

theorem mainReadInput_rejected (rejected : List Str) (line : Str) (rest : List Str) (w : Str)
    (hrej : ∀ l ∈ rejected, validate l = none) (hline : validate line = some w) :
    mainReadInput (rejected ++ line :: rest) =
      { input_string := w, rest := rest, errors := rejected.length } := by
  induction rejected with
  | nil =>
    rw [List.nil_append, mainReadInput_cons, hline]
    rfl
  | cons l ls ih =>
    have h1 : validate l = none := hrej l (List.mem_cons_self l ls)
    have h2 := ih (fun x hx => hrej x (List.mem_cons_of_mem l hx))
    have hne : (ls ++ line :: rest).isEmpty = false := by cases ls <;> rfl
    rw [List.cons_append, mainReadInput_cons, h1, h2]
    simp [hne]

/-- C9: whatever the state, head index and tape before, when the key `h` is read and the
replacement lines are some rejected lines followed by a line that validates to `w`, the
configuration after the block has state `0`, head index `0`, tape `B`, `w`, `B` and the
map it had before; one error message is written per rejected line and the lines after
the accepted one are left unread. For the replacement line `0 1 1` the tape is
`B 0 1 1 B`. -/
theorem C9_reseed_resets :
    (∀ (c : Config) (rejected : List Str) (line : Str) (rest : List Str) (w : Str),
      (∀ l ∈ rejected, validate l = none) → validate line = some w →
      reseed c (some 'h') (rejected ++ line :: rest) =
        { cfg := { transition_function := c.transition_function, tape := ['B'] ++ w ++ ['B'],
                   current_state := '0', read_write_head_index := 0 }
          out := Output.halted :: List.replicate rejected.length Output.invalid
          verdict := none
          lines := rest }) ∧
    (∀ (c : Config) (rest : List Str),
      (reseed c (some 'h') (['0', ' ', '1', ' ', '1'] :: rest)).cfg =
        { transition_function := c.transition_function, tape := ['B', '0', '1', '1', 'B'],
          current_state := '0', read_write_head_index := 0 }) := by
  have main : ∀ (c : Config) (rejected : List Str) (line : Str) (rest : List Str) (w : Str),
      (∀ l ∈ rejected, validate l = none) → validate line = some w →
      reseed c (some 'h') (rejected ++ line :: rest) =
        { cfg := { transition_function := c.transition_function, tape := ['B'] ++ w ++ ['B'],
                   current_state := '0', read_write_head_index := 0 }
          out := Output.halted :: List.replicate rejected.length Output.invalid
          verdict := none
          lines := rest } := by
    intro c rejected line rest w hrej hline
    have hend : (runReadInput (rejected ++ line :: rest)).forever = false := by
      rw [runReadInput_eq, mainReadInput_rejected rejected line rest w hrej hline]
    rw [reseed_pause _ _ hend, runReadInput_eq,
      mainReadInput_rejected rejected line rest w hrej hline, construct_eq]
    simp
  refine ⟨main, ?_⟩
  intro c rest
  have h := main c [] ['0', ' ', '1', ' ', '1'] rest ['0', '1', '1'] (by simp) (by decide)
  rw [List.nil_append] at h
  rw [h]
  rfl

/-! ## C10: where the head moves from -/

/-- C10 as stated fails: with the single rule `0 0 0 0 R` and the input `0`, the first
loop iteration applies the rule at head index `0` and leaves the head at index `1`,
while `moveHead` started from index `0 + 1` on the written tape would leave it at `2`. -/
theorem C10_counterexample :
    ∃ s, lookupApply (construct rightTable ['0']) = some s ∧ s.verdict = none ∧
      mapFind rightTable ('0', '0') = some (('0', '0'), 'R') ∧
      (construct rightTable ['0']).read_write_head_index = 0 ∧
      s.cfg.read_write_head_index = 1 ∧
      (moveHead
        { transition_function := rightTable, tape := ['B', '0', 'B'], current_state := '0',
          read_write_head_index := 0 + 1 } 'R').read_write_head_index = 2 ∧
      s.cfg.read_write_head_index ≠
        (moveHead
          { transition_function := rightTable, tape := ['B', '0', 'B'], current_state := '0',
            read_write_head_index := 0 + 1 } 'R').read_write_head_index := by
  refine ⟨⟨⟨rightTable, ['B', '0', 'B'], '0', 1⟩, [], none⟩, ?_, ?_, ?_, ?_, ?_, ?_, ?_⟩ <;>
    decide

/-- C10, amended: when a transition with direction `d` is applied in a reachable
configuration with head index `h`, the new head index is the one `moveHead` yields from
the index `h` itself (not from `h+1`, the index of the cell read and written), on the
tape after the write: `h+1` for `R`, `h-1` for `L` at a positive index, `0` for `L` at
index `0`, and `h` for any other direction. -/
theorem C10_head_moves_from_head (tf : TRANSITION_MAP) (c : Config)
    (symbol new_state new_tape_symbol direction : Char)
    (hr : Reachable tf c) (hf : c.current_state ≠ 'f')
    (hsym : (extendTape c).tape[c.read_write_head_index + 1]? = some symbol)
    (hfind : mapFind c.transition_function (c.current_state, symbol) =
      some ((new_state, new_tape_symbol), direction)) :
    ∃ s, lookupApply c = some s ∧ s.verdict = none ∧
      s.cfg.read_write_head_index =
        (moveHead
          { transition_function := c.transition_function
            tape := (extendTape c).tape.set (c.read_write_head_index + 1) new_tape_symbol
            current_state := new_state
            read_write_head_index := c.read_write_head_index } direction).read_write_head_index ∧
      s.cfg.read_write_head_index =
        (if direction = 'R' then c.read_write_head_index + 1
         else if direction = 'L' then c.read_write_head_index - 1
         else c.read_write_head_index) := by
  have hb := extendTape_bound c (reachable_inv tf c hr).2
  have hb2 : c.read_write_head_index + 1 <
      ((extendTape c).tape.set (c.read_write_head_index + 1) new_tape_symbol).length := by
    simpa using hb
  have hH := moveHead_head
    ⟨c.transition_function,
      (extendTape c).tape.set (c.read_write_head_index + 1) new_tape_symbol, new_state,
      c.read_write_head_index⟩ direction hb2
  exact ⟨_, lookupApply_apply c symbol new_state new_tape_symbol direction hsym hf hfind,
    rfl, rfl, hH⟩

/-! ## C8: table construction -/

theorem blank_ne_slash {x : Char} (h : isspace x = true) : x ≠ '/' := by
  intro e
  rw [e] at h
  exact absurd h (by decide)

theorem findComment_cons_ne (x : Char) (l : Str) (hx : x ≠ '/') :
    findComment (x :: l) = (findComment l).map (fun i => i + 1) := by
  cases l with
  | nil => rfl
  | cons y r => simp [findComment, hx]

theorem findComment_cons_next_ne (x y : Char) (r : Str) (hy : y ≠ '/') :
    findComment (x :: y :: r) = (findComment (y :: r)).map (fun i => i + 1) := by
  simp [findComment, hy]

theorem stripComment_cons (x : Char) (l : Str)
    (h : findComment (x :: l) = (findComment l).map (fun i => i + 1)) :
    stripComment (x :: l) = x :: stripComment l := by
  unfold stripComment
  rw [h]
  cases findComment l with
  | none => rfl
  | some i => simp [substr]

theorem stripComment_blank (ws l : Str) (hws : IsBlank ws) :
    stripComment (ws ++ l) = ws ++ stripComment l := by
  induction ws with
  | nil => rfl
  | cons x ws ih =>
    have hx : x ≠ '/' := blank_ne_slash (hws x (List.mem_cons_self x ws))
    rw [List.cons_append, stripComment_cons x (ws ++ l) (findComment_cons_ne x _ hx),
      ih (fun y hy => hws y (List.mem_cons_of_mem x hy)), List.cons_append]

/-- A character followed by white space is kept, whatever it is. -/
theorem stripComment_token (x : Char) (ws l : Str) (hws : IsBlank ws) (hne : ws ≠ []) :
    stripComment (x :: (ws ++ l)) = x :: (ws ++ stripComment l) := by
  cases ws with
  | nil => exact absurd rfl hne
  | cons y ws =>
    have hy : y ≠ '/' := blank_ne_slash (hws y (List.mem_cons_self y ws))
    rw [List.cons_append, stripComment_cons x _ (findComment_cons_next_ne x y _ hy),
      ← List.cons_append, stripComment_blank (y :: ws) l hws]

/-- The end of a rule line: the direction, white space, and the comment if any. -/
theorem stripComment_last (e : Char) (s5 cm : Str) (hws : IsBlank s5)
    (hcm : cm = [] ∨ ((∃ rest, cm = '/' :: '/' :: rest) ∧ (s5 = [] → e ≠ '/'))) :
    stripComment (e :: (s5 ++ cm)) = e :: s5 := by
  have hcm2 : stripComment cm = [] := by
    rcases hcm with h | ⟨⟨rest, h⟩, _⟩
    · rw [h]; rfl
    · rw [h]; simp [stripComment, findComment, substr]
  by_cases h5 : s5 = []
  · subst h5
    rcases hcm with h | ⟨⟨rest, h⟩, he⟩
    · rw [h]; rfl
    · rw [h, List.nil_append,
        stripComment_cons e _ (findComment_cons_ne e _ (he rfl)), ← h, hcm2]
  · rw [stripComment_token e s5 cm hws h5, hcm2, List.append_nil]

theorem filter_blank (ws : Str) (hws : IsBlank ws) :
    ws.filter (fun c => !isspace c) = [] := by
  rw [List.filter_eq_nil_iff]
  intro a ha
  simp [hws a ha]

/-- What the loop body reads from a well-formed rule line. -/
theorem ruleLine_extract (u : FiveTuple) (line : Str) (t : FiveTuple) (h : RuleLine line t) :
    startsWithComment line = false ∧ line.isEmpty = false ∧
      extract u (stripComment line) = t := by
  obtain ⟨s0, s1, s2, s3, s4, s5, cm, b0, b1, b2, b3, b4, b5, n1, n2, n3, n4,
    ha, hb, hc, hd, he, hcm, rfl⟩ := h
  refine ⟨?_, ?_, ?_⟩
  · cases s0 with
    | nil =>
      cases s1 with
      | nil => exact absurd rfl n1
      | cons y s1 =>
        have hy : y ≠ '/' := blank_ne_slash (b1 y (List.mem_cons_self y s1))
        simp [startsWithComment, hy]
    | cons x s0 =>
      have hx : x ≠ '/' := blank_ne_slash (b0 x (List.mem_cons_self x s0))
      cases s0 <;> simp [startsWithComment, hx]
  · cases s0 <;> rfl
  · rw [stripComment_blank s0 _ b0, stripComment_token _ s1 _ b1 n1,
      stripComment_token _ s2 _ b2 n2, stripComment_token _ s3 _ b3 n3,
      stripComment_token _ s4 _ b4 n4, stripComment_last _ s5 cm b5 hcm]
    simp [extract, List.filter_append, List.filter_cons, filter_blank, b0, b1, b2, b3, b4, b5,
      ha, hb, hc, hd, he]

theorem createTransitionFunctionLine_rule (u : FiveTuple) (tf : TRANSITION_MAP) (line : Str)
    (t : FiveTuple) (h : RuleLine line t) :
    createTransitionFunctionLine u tf line = mapAssign tf t.key t.value := by
  obtain ⟨h1, h2, h3⟩ := ruleLine_extract u line t h
  simp only [createTransitionFunctionLine, h1, h2, h3]
  rfl

theorem createTransitionFunctionLine_skip (u : FiveTuple) (tf : TRANSITION_MAP) (line : Str)
    (h : line = [] ∨ startsWithComment line = true) :
    createTransitionFunctionLine u tf line = tf := by
  rcases h with h | h
  · subst h; rfl
  · simp [createTransitionFunctionLine, h]

/-- A line holds at most one rule. -/
theorem ruleLine_unique (line : Str) (t t2 : FiveTuple) (h : RuleLine line t)
    (h2 : RuleLine line t2) : t = t2 := by
  rw [← (ruleLine_extract t line t h).2.2, (ruleLine_extract t line t2 h2).2.2]

theorem mapFind_mapAssign (m : TRANSITION_MAP) (k k2 : Key) (v : Value) :
    mapFind (mapAssign m k v) k2 = if k = k2 then some v else mapFind m k2 := by
  induction m with
  | nil => simp [mapAssign, mapFind]
  | cons e rest ih =>
    obtain ⟨k0, v0⟩ := e
    by_cases h0 : k0 = k
    · subst h0
      simp only [mapAssign, if_true, mapFind]
      by_cases h1 : k0 = k2 <;> simp [h1]
    · simp only [mapAssign, if_neg h0, mapFind, ih]
      by_cases h1 : k0 = k2
      · subst h1
        simp [Ne.symm h0]
      · simp [h1]

theorem mem_keys_mapAssign (m : TRANSITION_MAP) (k k2 : Key) (v : Value) :
    k2 ∈ (mapAssign m k v).map Prod.fst ↔ k2 = k ∨ k2 ∈ m.map Prod.fst := by
  induction m with
  | nil => simp [mapAssign]
  | cons e rest ih =>
    obtain ⟨k0, v0⟩ := e
    by_cases h0 : k0 = k
    · subst h0
      simp [mapAssign]
    · simp only [mapAssign, if_neg h0, List.map_cons, List.mem_cons, ih]
      tauto

theorem nodup_keys_mapAssign (m : TRANSITION_MAP) (k : Key) (v : Value)
    (h : (m.map Prod.fst).Nodup) : ((mapAssign m k v).map Prod.fst).Nodup := by
  induction m with
  | nil => simp [mapAssign]
  | cons e rest ih =>
    obtain ⟨k0, v0⟩ := e
    rw [List.map_cons, List.nodup_cons] at h
    by_cases h0 : k0 = k
    · subst h0
      simp only [mapAssign, if_pos, List.map_cons, List.nodup_cons]
      simpa using h
    · simp only [mapAssign, if_neg h0, List.map_cons, List.nodup_cons, mem_keys_mapAssign]
      refine ⟨?_, ih h.2⟩
      rintro (h1 | h1)
      · exact h0 h1
      · exact h.1 h1

theorem mapFind_eq_none_iff (m : TRANSITION_MAP) (k : Key) :
    mapFind m k = none ↔ k ∉ m.map Prod.fst := by
  induction m with
  | nil => simp [mapFind]
  | cons e rest ih =>
    obtain ⟨k0, v0⟩ := e
    by_cases h0 : k0 = k
    · subst h0
      simp [mapFind]
    · simp [mapFind, h0, ih, Ne.symm h0]

theorem nodup_keys_line (u : FiveTuple) (tf : TRANSITION_MAP) (line : Str)
    (h : (tf.map Prod.fst).Nodup) :
    ((createTransitionFunctionLine u tf line).map Prod.fst).Nodup := by
  unfold createTransitionFunctionLine
  split
  · exact h
  · exact nodup_keys_mapAssign tf _ _ h

theorem nodup_keys_from (u : Nat → FiveTuple) (lines : List Str) :
    ∀ (n : Nat) (tf : TRANSITION_MAP), (tf.map Prod.fst).Nodup →
      ((createTransitionFunctionFrom u n tf lines).map Prod.fst).Nodup := by
  induction lines with
  | nil => intro n tf h; exact h
  | cons line rest ih =>
    intro n tf h
    exact ih (n + 1) _ (nodup_keys_line (u n) tf line h)

/-- A key that no rule line carries keeps the entry it had. -/
theorem mapFind_from_other (u : Nat → FiveTuple) (k : Key) (lines : List Str) :
    ∀ (n : Nat) (tf : TRANSITION_MAP), (∀ line ∈ lines, DescriptionLine line) →
      (∀ line ∈ lines, ∀ t, RuleLine line t → t.key ≠ k) →
      mapFind (createTransitionFunctionFrom u n tf lines) k = mapFind tf k := by
  induction lines with
  | nil => intro n tf _ _; rfl
  | cons line rest ih =>
    intro n tf hd hk
    have h1 := ih (n + 1) (createTransitionFunctionLine (u n) tf line)
      (fun l hl => hd l (List.mem_cons_of_mem line hl))
      (fun l hl => hk l (List.mem_cons_of_mem line hl))
    rw [createTransitionFunctionFrom, h1]
    rcases hd line (List.mem_cons_self line rest) with h | h | ⟨t, h⟩
    · rw [createTransitionFunctionLine_skip _ _ _ (Or.inl h)]
    · rw [createTransitionFunctionLine_skip _ _ _ (Or.inr h)]
    · rw [createTransitionFunctionLine_rule _ _ _ t h, mapFind_mapAssign,
        if_neg (hk line (List.mem_cons_self line rest) t h)]

/-- A key that some rule line carries gets the value of one of the rule lines that carry it. -/
theorem mapFind_from_rule (u : Nat → FiveTuple) (k : Key) (lines : List Str) :
    ∀ (n : Nat) (tf : TRANSITION_MAP), (∀ line ∈ lines, DescriptionLine line) →
      (∃ line ∈ lines, ∃ t, RuleLine line t ∧ t.key = k) →
      ∃ line ∈ lines, ∃ t, RuleLine line t ∧ t.key = k ∧
        mapFind (createTransitionFunctionFrom u n tf lines) k = some t.value := by
  induction lines with
  | nil =>
    intro n tf _ h
    obtain ⟨line, hl, _⟩ := h
    cases hl
  | cons line rest ih =>
    intro n tf hd hex
    have hdr : ∀ l ∈ rest, DescriptionLine l := fun l hl => hd l (List.mem_cons_of_mem line hl)
    by_cases hrest : ∃ l ∈ rest, ∃ t, RuleLine l t ∧ t.key = k
    · obtain ⟨l, hl, t, h1, h2, h3⟩ :=
        ih (n + 1) (createTransitionFunctionLine (u n) tf line) hdr hrest
      exact ⟨l, List.mem_cons_of_mem line hl, t, h1, h2, h3⟩
    · obtain ⟨l, hl, t, h1, h2⟩ := hex
      rcases List.mem_cons.mp hl with e | hl2
      · subst e
        refine ⟨l, List.mem_cons_self l rest, t, h1, h2, ?_⟩
        rw [createTransitionFunctionFrom,
          mapFind_from_other u k rest (n + 1) _ hdr
            (fun l2 hl2 t2 ht2 hk2 => hrest ⟨l2, hl2, t2, ht2, hk2⟩),
          createTransitionFunctionLine_rule _ _ _ t h1, mapFind_mapAssign, if_pos h2]
      · exact absurd ⟨l, hl2, t, h1, h2⟩ hrest

/-- Empty and comment lines can be removed without changing the map that is built. -/
theorem createTransitionFunctionFrom_filter (u u2 : Nat → FiveTuple) (lines : List Str) :
    ∀ (n n2 : Nat) (tf : TRANSITION_MAP), (∀ line ∈ lines, DescriptionLine line) →
      createTransitionFunctionFrom u2 n2 tf
        (lines.filter (fun l => !(startsWithComment l || l.isEmpty))) =
      createTransitionFunctionFrom u n tf lines := by
  induction lines with
  | nil => intro n n2 tf _; rfl
  | cons line rest ih =>
    intro n n2 tf hd
    have hdr : ∀ l ∈ rest, DescriptionLine l := fun l hl => hd l (List.mem_cons_of_mem line hl)
    rcases hd line (List.mem_cons_self line rest) with h | h | ⟨t, h⟩
    · subst h
      rw [createTransitionFunctionFrom, createTransitionFunctionLine_skip _ _ _ (Or.inl rfl),
        ← ih (n + 1) n2 tf hdr]
      rfl
    · rw [createTransitionFunctionFrom, createTransitionFunctionLine_skip _ _ _ (Or.inr h),
        ← ih (n + 1) n2 tf hdr]
      simp [List.filter_cons, h]
    · obtain ⟨h1, h2, _⟩ := ruleLine_extract (u n) line t h
      have hf : (line :: rest).filter (fun l => !(startsWithComment l || l.isEmpty)) =
          line :: rest.filter (fun l => !(startsWithComment l || l.isEmpty)) := by
        simp [List.filter_cons, h1, h2]
      rw [hf, createTransitionFunctionFrom, createTransitionFunctionFrom,
        createTransitionFunctionLine_rule _ _ _ t h, createTransitionFunctionLine_rule _ _ _ t h,
        ih (n + 1) (n2 + 1) _ hdr]

/-- C8: for a description whose lines are each empty, a comment line, or a well-formed
rule line (five single characters separated by white space, optionally followed by a
comment), the keys of the built map are pairwise distinct and are exactly the keys of
the rule lines; a key whose rule lines all carry the same rule (in particular a key that
occurs on one rule line) is mapped to the next state, write symbol and direction of that
rule; an empty or comment line leaves the map as it is, and removing these lines from
the description gives the same map. The lines `0 0 1 1 L`, `// comment` and the empty
line give the map with the single entry `('0','0') -> ('1','1','L')`. -/
theorem C8_table_construction :
    (∀ (u : Nat → FiveTuple) (lines : List Str), (∀ line ∈ lines, DescriptionLine line) →
      ((createTransitionFunction u lines).map Prod.fst).Nodup ∧
      (∀ k : Key, k ∈ (createTransitionFunction u lines).map Prod.fst ↔
        ∃ line ∈ lines, ∃ t, RuleLine line t ∧ t.key = k) ∧
      (∀ k : Key, mapFind (createTransitionFunction u lines) k ≠ none ↔
        ∃ line ∈ lines, ∃ t, RuleLine line t ∧ t.key = k) ∧
      (∀ line ∈ lines, ∀ t, RuleLine line t →
        (∀ line2 ∈ lines, ∀ t2, RuleLine line2 t2 → t2.key = t.key → t2 = t) →
        mapFind (createTransitionFunction u lines) t.key = some t.value) ∧
      (∀ u2 : Nat → FiveTuple,
        createTransitionFunction u2
          (lines.filter (fun l => !(startsWithComment l || l.isEmpty))) =
        createTransitionFunction u lines)) ∧
    (∀ (u : FiveTuple) (tf : TRANSITION_MAP) (line : Str),
      line = [] ∨ startsWithComment line = true →
      createTransitionFunctionLine u tf line = tf) ∧
    (∀ u : Nat → FiveTuple,
      createTransitionFunction u
        [['0', ' ', '0', ' ', '1', ' ', '1', ' ', 'L'],
         ['/', '/', ' ', 'c', 'o', 'm', 'm', 'e', 'n', 't'], []] =
        [(('0', '0'), (('1', '1'), 'L'))]) := by
  refine ⟨?_, createTransitionFunctionLine_skip, fun u => rfl⟩
  intro u lines hd
  have hfind : ∀ k : Key, mapFind (createTransitionFunction u lines) k ≠ none ↔
      ∃ line ∈ lines, ∃ t, RuleLine line t ∧ t.key = k := by
    intro k
    constructor
    · intro h
      by_contra hno
      apply h
      have := mapFind_from_other u k lines 0 [] hd
        (fun l hl t ht hk => hno ⟨l, hl, t, ht, hk⟩)
      rw [createTransitionFunction, this]
      rfl
    · intro h
      obtain ⟨l, _, t, _, _, h3⟩ := mapFind_from_rule u k lines 0 [] hd h
      rw [createTransitionFunction, h3]
      simp
  refine ⟨?_, ?_, hfind, ?_, ?_⟩
  · exact nodup_keys_from u lines 0 [] (by simp)
  · intro k
    rw [← hfind k, Ne, mapFind_eq_none_iff, not_not]
  · intro line hl t ht huniq
    obtain ⟨l2, hl2, t2, h1, h2, h3⟩ :=
      mapFind_from_rule u t.key lines 0 [] hd ⟨line, hl, t, ht, rfl⟩
    rw [createTransitionFunction, h3, huniq l2 hl2 t2 h1 h2]
  · intro u2
    exact createTransitionFunctionFrom_filter u u2 lines 0 0 [] hd

/-! ## The theorems at concrete inputs -/

theorem acceptedConfig_reachable : Reachable acceptTable acceptedConfig :=
  Reachable.cycle (construct acceptTable ['0']) none []
    ⟨acceptedConfig, [Output.id [] '0' ['0']], none, []⟩ (Reachable.construct _)
    (by decide) rfl

theorem ruleText_ruleLine : RuleLine ruleText ⟨'0', '0', '1', '1', 'L'⟩ :=
  ⟨[], [' '], [' '], [' '], [' '], [], [], by simp [IsBlank],
    by simp [IsBlank]; decide, by simp [IsBlank]; decide, by simp [IsBlank]; decide,
    by simp [IsBlank]; decide, by simp [IsBlank], by simp, by simp, by simp, by simp,
    by decide, by decide, by decide, by decide, by decide, Or.inl rfl, rfl⟩

/-- With the rule `0 0 0 1 L` and the input `0`, the first transition writes `1` at
index `1` and prepends a blank: the tape `B 0 B` becomes `B B 1 B`. -/
theorem C1_witness :
    Reachable leftTable (construct leftTable ['0']) ∧
    (construct leftTable ['0']).current_state ≠ 'f' ∧
    (extendTape (construct leftTable ['0'])).tape[0 + 1]? = some '0' ∧
    mapFind leftTable ('0', '0') = some (('0', '1'), 'L') ∧
    ∃ s, lookupApply (construct leftTable ['0']) = some s ∧
      s.cfg.tape = ['B', 'B', '1', 'B'] ∧ s.cfg.tape[2]? = some '1' := by
  refine ⟨Reachable.construct _, by decide, by decide, by decide, ?_⟩
  obtain ⟨s, h1, _, _, _, h5, _⟩ :=
    C1_transition_writes_one_cell leftTable (construct leftTable ['0']) '0' '0' '1' 'L'
      (Reachable.construct _) (by decide) (by decide) (by decide)
  refine ⟨s, h1, ?_, ?_⟩
  · rw [h5]; decide
  · rw [h5]; decide

/-- With the rule `0 0 f 0 R` and the input `0`, the run is in state `f` after one
iteration and halts ACCEPTED in the second, with one accept message. -/
theorem C2_witness :
    Reachable acceptTable acceptedConfig ∧ acceptedConfig.current_state = 'f' ∧
    (∃ s, lookupApply acceptedConfig = some s ∧ s.verdict = some Verdict.ACCEPTED ∧
      s.cfg = acceptedConfig) ∧
    ∃ q, run 2 (construct acceptTable ['0']) [] [] = some q ∧
      q.verdict = some Verdict.ACCEPTED ∧ q.cycles = 2 ∧ q.out.count Output.accepted = 1 := by
  refine ⟨acceptedConfig_reachable, rfl, ?_, ?_⟩
  · obtain ⟨s, h1, h2, _, _, h5, h6, h7, h8, _⟩ :=
      (C2_acceptance_priority acceptTable).1 acceptedConfig acceptedConfig_reachable rfl
    refine ⟨s, h1, h2, ?_⟩
    obtain ⟨cfg, out, verdict⟩ := s
    obtain ⟨tf, tape, st, hd⟩ := cfg
    simp only at h5 h6 h7 h8
    rw [h5, h6, h7, h8]
    rfl
  · obtain ⟨q, h1, h2, h3, h4, _⟩ :=
      (C2_acceptance_priority acceptTable).2 1 0 (construct acceptTable ['0']) [] []
        ⟨acceptedConfig, [Output.id [] '0' ['0']], none, 1, []⟩
        (Reachable.construct _) (by decide) rfl rfl (by decide)
    exact ⟨q, h1, h2, h3, h4⟩

/-- With the rule `0 0 0 0 R` and the input `1`, the first iteration finds no entry for
`('0','1')` and the run halts REJECTED in it, the tape still `B 1 B`. -/
theorem C3_witness :
    Reachable rightTable (construct rightTable ['1']) ∧
    (construct rightTable ['1']).current_state ≠ 'f' ∧
    (∀ symbol, (extendTape (construct rightTable ['1'])).tape[0 + 1]? = some symbol →
      mapFind rightTable ('0', symbol) = none) ∧
    ∃ r, run 5 (construct rightTable ['1']) [] [] = some r ∧
      r.verdict = some Verdict.REJECTED ∧ r.cycles = 1 ∧ r.cfg.tape = ['B', '1', 'B'] := by
  have hfind : ∀ symbol, (extendTape (construct rightTable ['1'])).tape[0 + 1]? = some symbol →
      mapFind rightTable ('0', symbol) = none := by
    intro symbol h
    have e : symbol = '1' := by
      have h2 : (extendTape (construct rightTable ['1'])).tape[0 + 1]? = some '1' := by decide
      rw [h2] at h
      exact (Option.some.inj h).symm
    rw [e]
    decide
  refine ⟨Reachable.construct _, by decide, hfind, ?_⟩
  obtain ⟨s, _, _, _, _, _, _, h7, _, h9⟩ :=
    C3_no_transition_rejects rightTable (construct rightTable ['1'])
      (Reachable.construct _) (by decide) hfind
  refine ⟨_, h9 4 [] [] (by decide), rfl, rfl, ?_⟩
  show s.cfg.tape = ['B', '1', 'B']
  rw [h7]
  decide

/-- The configuration reached after one iteration with the rule `0 0 f 0 R` has its head
inside the tape. -/
theorem C4_witness :
    Reachable acceptTable acceptedConfig ∧
    acceptedConfig.read_write_head_index < acceptedConfig.tape.length ∧
    (extendTape acceptedConfig).read_write_head_index + 1 <
      (extendTape acceptedConfig).tape.length :=
  ⟨acceptedConfig_reachable,
    (C4_indices_valid_tape_grows acceptTable acceptedConfig acceptedConfig_reachable).1,
    (C4_indices_valid_tape_grows acceptTable acceptedConfig acceptedConfig_reachable).2.1⟩

/-- On the tape `B 0 1 B` with the head at index `2`, `L` moves the head to index `1`. -/
theorem C5_witness :
    midConfig.read_write_head_index < midConfig.tape.length ∧
    0 < midConfig.read_write_head_index ∧
    moveHead midConfig 'L' = { midConfig with read_write_head_index := 1 } :=
  ⟨by decide, by decide,
    (C5_moveHead_contract midConfig (by decide)).2.2.2.2 (by decide)⟩

/-- The line `0 1 1` is accepted with the result `011`; the line `0x` followed by the
line `1` gives the result `1` after one error message; the line `0x` at the end of the
input, with no newline, is rejected for ever. -/
theorem C7_witness :
    (∀ c ∈ (['0', ' ', '1', ' ', '1'] : Str).filter (fun c => !isspace c), c = '0' ∨ c = '1') ∧
    mainReadInput [['0', ' ', '1', ' ', '1'], ['1']] =
      { input_string := ['0', '1', '1'], rest := [['1']], errors := 0 } ∧
    (¬ ∀ c ∈ (['0', 'x'] : Str).filter (fun c => !isspace c), c = '0' ∨ c = '1') ∧
    mainReadInput [['0', 'x'], ['1']] = { input_string := ['1'], rest := [], errors := 1 } ∧
    mainReadInput [['0', 'x']] =
      { input_string := ['0', 'x'], rest := [], errors := 1, forever := true } := by
  have h : ∀ c ∈ (['0', ' ', '1', ' ', '1'] : Str).filter (fun c => !isspace c),
      c = '0' ∨ c = '1' := by decide
  have hx : ¬ ∀ c ∈ (['0', 'x'] : Str).filter (fun c => !isspace c), c = '0' ∨ c = '1' := by
    decide
  refine ⟨h, (C7_validation.2.1 ['0', ' ', '1', ' ', '1'] [['1']] h).1, hx, ?_, ?_⟩
  · rw [(C7_validation.2.2.1 ['0', 'x'] ['1'] [] hx).1]
    decide
  · exact C7_validation.2.2.2.1 ['0', 'x'] hx

/-- The description `0 0 1 1 L`, `// comment`, empty line: the key `('0','0')` is mapped
to `('1','1','L')`. -/
theorem C8_witness :
    (∀ line ∈ [ruleText, commentText, []], DescriptionLine line) ∧
    RuleLine ruleText ⟨'0', '0', '1', '1', 'L'⟩ ∧
    mapFind (createTransitionFunction someValues [ruleText, commentText, []]) ('0', '0') =
      some (('1', '1'), 'L') := by
  have hd : ∀ line ∈ [ruleText, commentText, []], DescriptionLine line := by
    intro line hl
    simp only [List.mem_cons, List.mem_singleton, List.not_mem_nil, or_false] at hl
    rcases hl with h | h | h
    · exact Or.inr (Or.inr ⟨_, h ▸ ruleText_ruleLine⟩)
    · exact Or.inr (Or.inl (by rw [h]; decide))
    · exact Or.inl h
  refine ⟨hd, ruleText_ruleLine, ?_⟩
  have h := (C8_table_construction.1 someValues [ruleText, commentText, []] hd).2.2.2.1
    ruleText (by simp) ⟨'0', '0', '1', '1', 'L'⟩ ruleText_ruleLine ?_
  · exact h
  · intro line2 hl2 t2 ht2 _
    simp only [List.mem_cons, List.mem_singleton, List.not_mem_nil, or_false] at hl2
    rcases hl2 with h | h | h
    · subst h
      exact ruleLine_unique _ _ _ ht2 ruleText_ruleLine
    · subst h
      exact absurd (ruleLine_extract ⟨'?', '?', '?', '?', '?'⟩ _ _ ht2).1 (by decide)
    · subst h
      exact absurd (ruleLine_extract ⟨'?', '?', '?', '?', '?'⟩ _ _ ht2).2.1 (by decide)

/-- From the middle of a run, the key `h` followed by the rejected line `0x` and the
line `0 1 1` leaves state `0`, head index `0` and the tape `B 0 1 1 B`. -/
theorem C9_witness :
    (∀ l ∈ [['0', 'x']], validate l = none) ∧
    validate ['0', ' ', '1', ' ', '1'] = some ['0', '1', '1'] ∧
    (reseed midConfig (some 'h') [['0', 'x'], ['0', ' ', '1', ' ', '1'], ['1']]).cfg =
      { transition_function := rightTable, tape := ['B', '0', '1', '1', 'B'],
        current_state := '0', read_write_head_index := 0 } := by
  have h1 : ∀ l ∈ [['0', 'x']], validate l = none := by decide
  have h2 : validate ['0', ' ', '1', ' ', '1'] = some ['0', '1', '1'] := by decide
  refine ⟨h1, h2, ?_⟩
  have h := C9_reseed_resets.1 midConfig [['0', 'x']] ['0', ' ', '1', ' ', '1'] [['1']]
    ['0', '1', '1'] h1 h2
  exact congrArg Cycle.cfg h

/-- With the rule `0 0 0 0 R` and the input `0`, the head moves from index `0` to `1`. -/
theorem C10_witness :
    Reachable rightTable (construct rightTable ['0']) ∧
    (construct rightTable ['0']).current_state ≠ 'f' ∧
    (extendTape (construct rightTable ['0'])).tape[0 + 1]? = some '0' ∧
    mapFind rightTable ('0', '0') = some (('0', '0'), 'R') ∧
    ∃ s, lookupApply (construct rightTable ['0']) = some s ∧
      s.cfg.read_write_head_index = 1 := by
  refine ⟨Reachable.construct _, by decide, by decide, by decide, ?_⟩
  obtain ⟨s, h1, _, _, h4⟩ :=
    C10_head_moves_from_head rightTable (construct rightTable ['0']) '0' '0' '0' 'R'
      (Reachable.construct _) (by decide) (by decide) (by decide)
  exact ⟨s, h1, h4⟩

/-! ## C11: the trace line -/

/-- C11 fails on the code: with the single rule `0 0 0 B R` and the input `01`, the
configuration after one iteration has the tape `B B 1 B` and the head index `1`; the
specified line has an empty left part, but `printID` writes the cell of index `head+1`
on both sides of the state, because it takes the head index as the length of the left
part. With the rules `0 0 1 0 R`, `1 B 2 B R`, `2 B 3 B R`, `3 B 4 B L` and the input
`0`, the fifth line written has the right part `B B`, past the last non-blank cell,
where the specified right part is empty. -/
theorem C11_printID_failing_inputs :
    Reachable blankingTable blankedConfig ∧
    blankedConfig.tape[blankedConfig.read_write_head_index + 1]? = some '1' ∧
    printID blankedConfig blankedConfig.current_state = Output.id ['1'] '0' ['1'] ∧
    traceLineSpec blankedConfig = Output.id [] '0' ['1'] ∧
    run 4 (construct sweepTable ['0']) [] [] =
      some { cfg := { transition_function := sweepTable, tape := ['B', '0', 'B', 'B', 'B'],
                      current_state := '4', read_write_head_index := 2 }
             out := [Output.id [] '0' ['0'], Output.id ['0'] '1' [], Output.id ['0', 'B'] '2' [],
                     Output.id ['0', 'B', 'B'] '3' []]
             verdict := none, cycles := 4, lines := [] } ∧
    printID
      { transition_function := sweepTable, tape := ['B', '0', 'B', 'B', 'B'],
        current_state := '4', read_write_head_index := 2 } '4' =
      Output.id ['0', 'B'] '4' ['B', 'B'] ∧
    traceLineSpec
      { transition_function := sweepTable, tape := ['B', '0', 'B', 'B', 'B'],
        current_state := '4', read_write_head_index := 2 } =
      Output.id ['0', 'B'] '4' [] := by
  refine ⟨?_, by decide, by decide, by decide, by decide, by decide, by decide⟩
  exact Reachable.cycle (construct blankingTable ['0', '1']) none []
    ⟨blankedConfig, [Output.id [] '0' ['0', '1']], none, []⟩ (Reachable.construct _)
    (by decide) rfl

/-! ## C12: validation is idempotent -/

theorem validate_some (s n : Str) (h : validate s = some n) :
    n = s.filter (fun c => !isspace c) ∧ ∀ x ∈ n, x = '0' ∨ x = '1' := by
  unfold validate at h
  simp only at h
  split at h
  · rename_i hall
    cases h
    refine ⟨rfl, ?_⟩
    intro x hx
    rw [List.all_eq_true] at hall
    simpa using hall x hx
  · cases h

theorem validate_clean (n : Str) (h : ∀ x ∈ n, x = '0' ∨ x = '1') : validate n = some n := by
  have hf : n.filter (fun c => !isspace c) = n := by
    rw [List.filter_eq_self]
    intro x hx
    rcases h x hx with e | e <;> rw [e] <;> decide
  have hall : n.all (fun c => c == '0' || c == '1') = true := by
    rw [List.all_eq_true]
    intro x hx
    rcases h x hx with e | e <;> simp [e]
  simp only [validate, hf, hall]
  rfl

/-- C12: when the validation loop accepts the raw line `s` with the result `n` (it stops
on that line, with no error message), it also accepts `n` taken as a raw line, with the
result `n` again; this holds for the loop of `main` and for the loop of `run`. -/
theorem C12_validation_idempotent (s n : Str) (rest : List Str)
    (h : mainReadInput (s :: rest) = { input_string := n, rest := rest, errors := 0 }) :
    validate s = some n ∧ validate n = some n ∧
    ∀ rest2 : List Str,
      mainReadInput (n :: rest2) = { input_string := n, rest := rest2, errors := 0 } ∧
      runReadInput (n :: rest2) = { input_string := n, rest := rest2, errors := 0 } := by
  have hs : validate s = some n := by
    rw [mainReadInput_cons] at h
    cases hv : validate s with
    | none =>
      rw [hv] at h
      have := congrArg Validated.errors h
      simp only at this
      split at this
      · cases this
      · cases this
    | some w =>
      rw [hv] at h
      have := congrArg Validated.input_string h
      simp only at this
      rw [this]
  have hn : validate n = some n := validate_clean n (validate_some s n hs).2
  refine ⟨hs, hn, ?_⟩
  intro rest2
  have hm : mainReadInput (n :: rest2) = { input_string := n, rest := rest2, errors := 0 } := by
    rw [mainReadInput_cons, hn]
  exact ⟨hm, by rw [runReadInput_eq, hm]⟩

/-- The line `0 1 1` is accepted with the result `011`, and `011` is accepted with the
result `011`. -/
theorem C12_witness :
    mainReadInput [['0', ' ', '1', ' ', '1']] =
      { input_string := ['0', '1', '1'], rest := [], errors := 0 } ∧
    mainReadInput [['0', '1', '1']] =
      { input_string := ['0', '1', '1'], rest := [], errors := 0 } :=
  ⟨by decide,
    ((C12_validation_idempotent ['0', ' ', '1', ' ', '1'] ['0', '1', '1'] []
      (by decide)).2.2 []).1⟩

/-! ## C13, C14: the two scenarios -/

/-- C13: the description `0 0 0 0 R`, `0 1 0 1 R`, `0 B f B R` builds the map of the
scenario. On the empty input, when the key `h` is read in neither of the first two
iterations, the first iteration reads `B` at index `head+1 = 1` and applies the rule
that enters state `f`; the second iteration halts ACCEPTED. The run executes two
iterations whatever the number allowed, and writes two trace lines and then the accept
message. -/
theorem C13_scenario_accepts_empty_input :
    (∀ u : Nat → FiveTuple, createTransitionFunction u scenarioLines = scenarioTable) ∧
    (construct scenarioTable []).read_write_head_index + 1 = 1 ∧
    (extendTape (construct scenarioTable [])).tape[1]? = some 'B' ∧
    mapFind scenarioTable ('0', 'B') = some (('f', 'B'), 'R') ∧
    lookupApply (construct scenarioTable []) =
      some { cfg := { transition_function := scenarioTable, tape := ['B', 'B'],
                      current_state := 'f', read_write_head_index := 1 }
             out := [], verdict := none } ∧
    ∀ (fuel : Nat) (keys : List (Option Char)) (lines : List Str),
      keys.headD none ≠ some 'h' → keys.tail.headD none ≠ some 'h' →
      run (fuel + 2) (construct scenarioTable []) keys lines =
        some { cfg := { transition_function := scenarioTable, tape := ['B', 'B', 'B'],
                        current_state := 'f', read_write_head_index := 1 }
               out := [Output.id [] '0' [], Output.id [] 'f' [], Output.accepted]
               verdict := some Verdict.ACCEPTED, cycles := 2, lines := lines } := by
  refine ⟨fun u => rfl, rfl, by decide, by decide, by decide, ?_⟩
  intro fuel keys lines h1 h2
  have hc : cycle (construct scenarioTable []) (keys.headD none) lines =
      some { cfg := { transition_function := scenarioTable, tape := ['B', 'B'],
                      current_state := 'f', read_write_head_index := 1 }
             out := [Output.id [] '0' []], verdict := none, lines := lines } := by
    rw [cycle_no_pause _ _ _ h1]
    have : lookupApply (construct scenarioTable []) =
        some { cfg := { transition_function := scenarioTable, tape := ['B', 'B'],
                        current_state := 'f', read_write_head_index := 1 }
               out := [], verdict := none } := by decide
    rw [this]
    rfl
  have hl : lookupApply
      { transition_function := scenarioTable, tape := ['B', 'B'],
        current_state := 'f', read_write_head_index := 1 } =
      some { cfg := { transition_function := scenarioTable, tape := ['B', 'B', 'B'],
                      current_state := 'f', read_write_head_index := 1 }
             out := [Output.accepted], verdict := some Verdict.ACCEPTED } := by decide
  rw [run_succ_running (fuel + 1) _ keys lines _ hc rfl,
    run_halts_now fuel _ keys.tail lines _ Verdict.ACCEPTED h2 hl rfl]
  rfl

/-- The scenario of C13 with no key pressed and no line on standard input. -/
theorem C13_witness :
    ([] : List (Option Char)).headD none ≠ some 'h' ∧
    run 7 (construct scenarioTable []) [] [] =
      some { cfg := { transition_function := scenarioTable, tape := ['B', 'B', 'B'],
                      current_state := 'f', read_write_head_index := 1 }
             out := [Output.id [] '0' [], Output.id [] 'f' [], Output.accepted]
             verdict := some Verdict.ACCEPTED, cycles := 2, lines := [] } :=
  ⟨by decide, C13_scenario_accepts_empty_input.2.2.2.2.2 5 [] [] (by decide) (by decide)⟩

/-- C14: for every map whose only key is `('0','0')` and the input `1`, when the key `h`
is not read in the first iteration, that iteration examines `tape[head+1] = '1'`, finds
no entry, and the run halts REJECTED after this single iteration, whatever the number
allowed: no transition is applied and the tape is still `B 1 B`, with state `0` and
head index `0`. -/
theorem C14_scenario_rejects (tf : TRANSITION_MAP)
    (honly : ∀ k ∈ tf.map Prod.fst, k = (('0', '0') : Key)) :
    (extendTape (construct tf ['1'])).tape[(construct tf ['1']).read_write_head_index + 1]? =
      some '1' ∧
    mapFind tf ('0', '1') = none ∧
    ∀ (fuel : Nat) (keys : List (Option Char)) (lines : List Str),
      keys.headD none ≠ some 'h' →
      run (fuel + 1) (construct tf ['1']) keys lines =
        some { cfg := { transition_function := tf, tape := ['B', '1', 'B'],
                        current_state := '0', read_write_head_index := 0 }
               out := [Output.id [] '0' ['1'], Output.rejected]
               verdict := some Verdict.REJECTED, cycles := 1, lines := lines } := by
  have hsym : (extendTape (construct tf ['1'])).tape[
      (construct tf ['1']).read_write_head_index + 1]? = some '1' := by
    simp [construct_eq, extendTape]
  have hfind : mapFind tf ('0', '1') = none := by
    rw [mapFind_eq_none_iff]
    intro hmem
    have := honly _ hmem
    exact absurd this (by decide)
  refine ⟨hsym, hfind, ?_⟩
  intro fuel keys lines hk
  have hl := lookupApply_reject (construct tf ['1']) '1' hsym
    (by simp [construct_eq]) (by simpa [construct_eq] using hfind)
  rw [run_halts_now fuel _ keys lines _ Verdict.REJECTED hk hl rfl]
  simp [construct_eq, extendTape, printID, find_first_not_of, find_last_not_of, substr,
    subSizeT, npos]

/-- The scenario of C14 with the single rule `0 0 0 0 R`. -/
theorem C14_witness :
    (∀ k ∈ rightTable.map Prod.fst, k = (('0', '0') : Key)) ∧
    run 3 (construct rightTable ['1']) [] [] =
      some { cfg := { transition_function := rightTable, tape := ['B', '1', 'B'],
                      current_state := '0', read_write_head_index := 0 }
             out := [Output.id [] '0' ['1'], Output.rejected]
             verdict := some Verdict.REJECTED, cycles := 1, lines := [] } :=
  ⟨by decide, (C14_scenario_rejects rightTable (by decide)).2.2 2 [] [] (by decide)⟩

/-! ## C15: the tape alphabet -/

/-- A loop iteration that goes on has applied a transition of the map. -/
theorem lookupApply_running (c : Config) (s : Step) (h : lookupApply c = some s)
    (hv : s.verdict = none) :
    ∃ symbol new_state new_tape_symbol direction,
      (extendTape c).tape[c.read_write_head_index + 1]? = some symbol ∧
      c.current_state ≠ 'f' ∧
      mapFind c.transition_function (c.current_state, symbol) =
        some ((new_state, new_tape_symbol), direction) ∧
      s.cfg = moveHead
        { transition_function := c.transition_function
          tape := (extendTape c).tape.set (c.read_write_head_index + 1) new_tape_symbol
          current_state := new_state
          read_write_head_index := c.read_write_head_index } direction := by
  obtain ⟨symbol, hsym⟩ := lookupApply_some c s h
  by_cases hf : c.current_state = 'f'
  · rw [lookupApply_accept c symbol hsym hf] at h
    cases h
    cases hv
  · cases hfind : mapFind c.transition_function (c.current_state, symbol) with
    | none =>
      rw [lookupApply_reject c symbol hsym hf hfind] at h
      cases h
      cases hv
    | some v =>
      obtain ⟨⟨ns, w⟩, d⟩ := v
      rw [lookupApply_apply c symbol ns w d hsym hf hfind] at h
      cases h
      exact ⟨symbol, ns, w, d, hsym, hf, hfind, rfl⟩

theorem reachableValidated_reachable (tf : TRANSITION_MAP) (c : Config)
    (h : ReachableValidated tf c) : Reachable tf c := by
  induction h with
  | construct raw w _ => exact Reachable.construct w
  | cycle c key lines s _ hc hv ih => exact Reachable.cycle c key lines s ih hc hv

/-- What a validation loop returns is made of the symbols `0` and `1`. -/
theorem mainReadInput_symbols (lines : List Str)
    (hend : (mainReadInput lines).forever = false) :
    ∀ x ∈ (mainReadInput lines).input_string, x = '0' ∨ x = '1' := by
  induction lines with
  | nil => intro x hx; cases hx
  | cons line rest ih =>
    cases hv : validate line with
    | some w =>
      rw [mainReadInput_cons, hv]
      exact (validate_some line w hv).2
    | none =>
      rw [mainReadInput_cons, hv] at hend ⊢
      cases rest with
      | nil => simp at hend
      | cons next more =>
        simp only [List.isEmpty_cons, Bool.false_eq_true, if_false] at hend ⊢
        exact ih hend

/-- C15 as stated fails: the description made of the well-formed rule line `0 0 0 X R`
and the validated input `0` lead, after one loop iteration, to the tape `B X B`, whose
cell of index `1` holds `X`. -/
theorem C15_counterexample :
    RuleLine xRuleText ⟨'0', '0', '0', 'X', 'R'⟩ ∧
    validate ['0'] = some ['0'] ∧
    ReachableValidated (createTransitionFunction someValues [xRuleText])
      { transition_function := createTransitionFunction someValues [xRuleText]
        tape := ['B', 'X', 'B'], current_state := '0', read_write_head_index := 1 } ∧
    (['B', 'X', 'B'] : List Char)[1]? = some 'X' ∧ ¬ InAlphabet 'X' := by
  refine ⟨?_, by decide, ?_, by decide, ?_⟩
  · exact ⟨[], [' '], [' '], [' '], [' '], [], [], by simp [IsBlank],
      by simp [IsBlank]; decide, by simp [IsBlank]; decide, by simp [IsBlank]; decide,
      by simp [IsBlank]; decide, by simp [IsBlank], by simp, by simp, by simp, by simp,
      by decide, by decide, by decide, by decide, by decide, Or.inl rfl, rfl⟩
  · exact ReachableValidated.cycle
      (construct (createTransitionFunction someValues [xRuleText]) ['0']) none []
      ⟨⟨createTransitionFunction someValues [xRuleText], ['B', 'X', 'B'], '0', 1⟩,
        [Output.id [] '0' ['0']], none, []⟩
      (ReachableValidated.construct ['0'] ['0'] (by decide)) (by decide) rfl
  · unfold InAlphabet
    decide

/-- C15, amended: for every map all of whose entries write `0`, `1` or `B`, and every
validated input, every cell of the tape holds `0`, `1` or `B` in every configuration
that a run reaches (replacements of the input included). -/
theorem C15_alphabet_invariant (tf : TRANSITION_MAP)
    (hw : ∀ k v, mapFind tf k = some v → InAlphabet v.1.2) (c : Config)
    (hr : ReachableValidated tf c) : ∀ x ∈ c.tape, InAlphabet x := by
  have hB : InAlphabet 'B' := Or.inr (Or.inr rfl)
  have hfresh : ∀ w : Str, (∀ x ∈ w, x = '0' ∨ x = '1') →
      ∀ x ∈ (construct tf w).tape, InAlphabet x := by
    intro w h x hx
    rw [construct_eq] at hx
    simp only [List.mem_cons, List.mem_append, List.mem_singleton, List.not_mem_nil,
      or_false] at hx
    rcases hx with e | hx | e
    · rw [e]; exact hB
    · rcases h x hx with e | e
      · exact Or.inl e
      · exact Or.inr (Or.inl e)
    · rw [e]; exact hB
  induction hr with
  | construct raw w hv => exact hfresh w (validate_some raw w hv).2
  | cycle c key lines s hrc hc hv ih =>
    have htf : c.transition_function = tf :=
      (reachable_inv tf c (reachableValidated_reachable tf c hrc)).1
    have hp : (reseed c key lines).cfg.transition_function = tf ∧
        ∀ x ∈ (reseed c key lines).cfg.tape, InAlphabet x := by
      by_cases hk : key = some 'h'
      · cases hend : (runReadInput lines).forever with
        | false =>
          rw [hk, reseed_pause c lines hend, htf]
          refine ⟨by simp [construct_eq], hfresh _ ?_⟩
          rw [runReadInput_eq] at hend ⊢
          exact mainReadInput_symbols lines hend
        | true =>
          rw [hk, reseed_forever c lines hend]
          exact ⟨htf, ih⟩
      · rw [reseed_no_pause c key lines hk]
        exact ⟨htf, ih⟩
    obtain ⟨_, t, hl, hv2, hs0⟩ := cycle_running c key lines s hc hv
    subst hs0
    obtain ⟨symbol, ns, w, d, hsym, _, hfind, hcfg⟩ :=
      lookupApply_running _ t hl hv2
    have hb : (reseed c key lines).cfg.read_write_head_index + 1 <
        (extendTape (reseed c key lines).cfg).tape.length := by
      by_contra hnot
      rw [List.getElem?_eq_none (by omega)] at hsym
      cases hsym
    have hb2 : (reseed c key lines).cfg.read_write_head_index + 1 <
        ((extendTape (reseed c key lines).cfg).tape.set
          ((reseed c key lines).cfg.read_write_head_index + 1) w).length := by
      simpa using hb
    have hT := moveHead_tape
      ⟨(reseed c key lines).cfg.transition_function,
        (extendTape (reseed c key lines).cfg).tape.set
          ((reseed c key lines).cfg.read_write_head_index + 1) w, ns,
        (reseed c key lines).cfg.read_write_head_index⟩ d hb2
    have hwA : InAlphabet w := by
      rw [hp.1] at hfind
      exact hw _ _ hfind
    intro x hx
    change x ∈ t.cfg.tape at hx
    rw [hcfg, hT, List.mem_append] at hx
    rcases hx with hx | hx
    · split at hx
      · rw [List.mem_singleton] at hx
        rw [hx]; exact hB
      · cases hx
    · rcases List.mem_or_eq_of_mem_set hx with hx | hx
      · rw [extendTape_tape, List.mem_append] at hx
        rcases hx with hx | hx
        · exact hp.2 x hx
        · split at hx
          · rw [List.mem_singleton] at hx
            rw [hx]; exact hB
          · cases hx
      · rw [hx]; exact hwA

/-- With the rule `0 0 0 1 L` and the validated input `0`, the tape after one loop
iteration, `B B 1 B`, is made of symbols of the alphabet. -/
theorem C15_witness :
    (∀ k v, mapFind leftTable k = some v → InAlphabet v.1.2) ∧
    ReachableValidated leftTable
      { transition_function := leftTable, tape := ['B', 'B', '1', 'B'], current_state := '0',
        read_write_head_index := 0 } ∧
    ∀ x ∈ ['B', 'B', '1', 'B'], InAlphabet x := by
  have hw : ∀ k v, mapFind leftTable k = some v → InAlphabet v.1.2 := by
    intro k v h
    by_cases hk : (('0', '0') : Key) = k
    · simp only [leftTable, mapFind, if_pos hk] at h
      cases h
      exact Or.inr (Or.inl rfl)
    · simp only [leftTable, mapFind, if_neg hk] at h
      cases h
  have hr : ReachableValidated leftTable
      { transition_function := leftTable, tape := ['B', 'B', '1', 'B'], current_state := '0',
        read_write_head_index := 0 } :=
    ReachableValidated.cycle (construct leftTable ['0']) none []
      ⟨⟨leftTable, ['B', 'B', '1', 'B'], '0', 0⟩, [Output.id [] '0' ['0']], none, []⟩
      (ReachableValidated.construct ['0'] ['0'] (by decide)) (by decide) rfl
  exact ⟨hw, hr, C15_alphabet_invariant leftTable hw _ hr⟩

/-! ## C16: a loop iteration that replaces the input -/

/-- C16 fails on the code: a loop iteration that reads the key `h` and gets a
replacement input goes on with the lookup on the fresh configuration, in the same
iteration. In the middle of a run with the rule `0 0 0 0 R`, the key `h` and the
replacement line `0` give the fresh configuration with tape `B 0 B`, state `0` and head
index `0`, whose trace line has an empty left part; but the iteration ends with the
head index `1`, after a transition, and the next trace line written has the left part
`0`: the line of the fresh configuration is never written. The same happens in the
configuration reached one iteration after the construction on the input `01`. -/
theorem C16_pause_cycle_applies_transition :
    (∀ (c : Config) (lines : List Str),
      cycle c (some 'h') lines =
        if (runReadInput lines).forever then
          some { cfg := c
                 out := printID c c.current_state ::
                   (Output.halted :: List.replicate (runReadInput lines).errors Output.invalid)
                 verdict := some Verdict.NEVER_RETURNS
                 lines := (runReadInput lines).rest }
        else
          (lookupApply (construct c.transition_function (runReadInput lines).input_string)).map
            (fun s =>
              { cfg := s.cfg
                out := printID c c.current_state ::
                  (Output.halted :: List.replicate (runReadInput lines).errors Output.invalid) ++
                    s.out
                verdict := s.verdict
                lines := (runReadInput lines).rest })) ∧
    Reachable rightTable
      { transition_function := rightTable, tape := ['B', '0', '1', 'B'], current_state := '0',
        read_write_head_index := 1 } ∧
    cycle
      { transition_function := rightTable, tape := ['B', '0', '1', 'B'], current_state := '0',
        read_write_head_index := 1 } (some 'h') [['0']] =
      some { cfg := { transition_function := rightTable, tape := ['B', '0', 'B'],
                      current_state := '0', read_write_head_index := 1 }
             out := [Output.id ['0'] '0' ['1'], Output.halted]
             verdict := none, lines := [] } ∧
    (reseed midConfig (some 'h') [['0']]).cfg =
      { transition_function := rightTable, tape := ['B', '0', 'B'], current_state := '0',
        read_write_head_index := 0 } ∧
    printID
      { transition_function := rightTable, tape := ['B', '0', 'B'], current_state := '0',
        read_write_head_index := 0 } '0' = Output.id [] '0' ['0'] ∧
    cycle midConfig (some 'h') [['0']] =
      some { cfg := { transition_function := rightTable, tape := ['B', '0', 'B'],
                      current_state := '0', read_write_head_index := 1 }
             out := [Output.id ['0', '1'] 'q' [], Output.halted]
             verdict := none, lines := [] } ∧
    run 2 midConfig [some 'h'] [['0']] =
      some { cfg := { transition_function := rightTable, tape := ['B', '0', 'B'],
                      current_state := '0', read_write_head_index := 1 }
             out := [Output.id ['0', '1'] 'q' [], Output.halted, Output.id ['0'] '0' [],
                     Output.rejected]
             verdict := some Verdict.REJECTED, cycles := 2, lines := [] } := by
  refine ⟨?_, ?_, by decide, by decide, by decide, by decide, by decide⟩
  · intro c lines
    cases hend : (runReadInput lines).forever with
    | true =>
      have hv : (reseed c (some 'h') lines).verdict = some Verdict.NEVER_RETURNS := by
        rw [reseed_forever c lines hend]
      rw [cycle_of_reseed_stop c (some 'h') lines _ hv, reseed_forever c lines hend]
      rfl
    | false =>
      have hv : (reseed c (some 'h') lines).verdict = none := by
        rw [reseed_pause c lines hend]
      rw [cycle_of_reseed c (some 'h') lines hv, reseed_pause c lines hend]
      rfl
  · exact Reachable.cycle (construct rightTable ['0', '1']) none []
      ⟨⟨rightTable, ['B', '0', '1', 'B'], '0', 1⟩, [Output.id [] '0' ['0', '1']], none, []⟩
      (Reachable.construct _) (by decide) rfl

/-! ## C17: lines made of white space -/

theorem stripComment_blank_comment (ws rest : Str) (hws : IsBlank ws) :
    stripComment (ws ++ '/' :: '/' :: rest) = ws := by
  rw [stripComment_blank ws _ hws]
  simp [stripComment, findComment, substr]

/-- A line made of white space, followed or not by a comment, is read as a rule whose
five characters are all indeterminate. -/
theorem createTransitionFunctionLine_blank (u : FiveTuple) (tf : TRANSITION_MAP)
    (ws cm : Str) (hws : IsBlank ws) (hne : ws ≠ [])
    (hcm : cm = [] ∨ ∃ rest, cm = '/' :: '/' :: rest) :
    createTransitionFunctionLine u tf (ws ++ cm) = mapAssign tf u.key u.value := by
  obtain ⟨x, ws2, rfl⟩ := List.exists_cons_of_ne_nil hne
  have hx : x ≠ '/' := blank_ne_slash (hws x (List.mem_cons_self x ws2))
  have h1 : startsWithComment ((x :: ws2) ++ cm) = false := by
    cases ws2 <;> cases cm <;> simp [startsWithComment, hx]
  have h2 : ((x :: ws2) ++ cm).isEmpty = false := rfl
  have h3 : stripComment ((x :: ws2) ++ cm) = x :: ws2 := by
    rcases hcm with h | ⟨rest, h⟩
    · rw [h, List.append_nil]
      have := stripComment_blank (x :: ws2) [] hws
      rw [List.append_nil] at this
      rw [this]
      simp [stripComment, findComment]
    · rw [h]
      exact stripComment_blank_comment (x :: ws2) rest hws
  simp only [createTransitionFunctionLine, h1, h2, h3, extract, filter_blank _ hws]
  rfl

/-- C17 fails on the code: a line of three spaces, and the line `  // note`, are not
skipped like the empty line. No character is read from them, so the five variables keep
their indeterminate values `u`, and the entry `(u1, u2) -> (u3, u4, u5)` is assigned:
it is added to an empty map, and it replaces the entry of a rule when the first two
values are the key of that rule. -/
theorem C17_blank_line_assigns_entry (u : FiveTuple) (tf : TRANSITION_MAP) :
    createTransitionFunctionLine u tf [] = tf ∧
    createTransitionFunctionLine u tf [' ', ' ', ' '] = mapAssign tf u.key u.value ∧
    createTransitionFunctionLine u tf [' ', ' ', '/', '/', ' ', 'n', 'o', 't', 'e'] =
      mapAssign tf u.key u.value ∧
    mapFind (createTransitionFunctionLine u [] [' ', ' ', ' ']) u.key = some u.value ∧
    createTransitionFunction (fun _ => u) [[' ', ' ', ' ']] = [(u.key, u.value)] ∧
    createTransitionFunctionLine ⟨'0', '0', 'x', 'y', 'z'⟩ [(('0', '0'), (('1', '1'), 'L'))]
      [' ', ' ', ' '] = [(('0', '0'), (('x', 'y'), 'z'))] := by
  have hb : IsBlank [' ', ' '] := by simp [IsBlank]; decide
  have hb3 : IsBlank [' ', ' ', ' '] := by simp [IsBlank]; decide
  have h1 := createTransitionFunctionLine_blank u tf [' ', ' ', ' '] [] hb3 (by simp)
    (Or.inl rfl)
  have h2 := createTransitionFunctionLine_blank u tf [' ', ' ']
    ['/', '/', ' ', 'n', 'o', 't', 'e'] hb (by simp) (Or.inr ⟨_, rfl⟩)
  have h3 := createTransitionFunctionLine_blank u [] [' ', ' ', ' '] [] hb3 (by simp)
    (Or.inl rfl)
  rw [List.append_nil] at h1 h3
  refine ⟨rfl, h1, h2, ?_, ?_, by decide⟩
  · rw [h3, mapFind_mapAssign, if_pos rfl]
  · simp only [createTransitionFunction, createTransitionFunctionFrom, h3]
    rfl

/-! ## C19: rule lines with the same key -/

theorem createTransitionFunctionFrom_append (u : Nat → FiveTuple) (pre rest : List Str) :
    ∀ (n : Nat) (tf : TRANSITION_MAP),
      createTransitionFunctionFrom u n tf (pre ++ rest) =
        createTransitionFunctionFrom u (n + pre.length)
          (createTransitionFunctionFrom u n tf pre) rest := by
  induction pre with
  | nil => intro n tf; rfl
  | cons l pre ih =>
    intro n tf
    rw [List.cons_append, createTransitionFunctionFrom, createTransitionFunctionFrom, ih,
      List.length_cons]
    congr 1
    omega

/-- A key of a map with pairwise distinct keys has exactly one entry. -/
theorem single_entry (m : TRANSITION_MAP) (k : Key) (hn : (m.map Prod.fst).Nodup)
    (hm : k ∈ m.map Prod.fst) : (m.filter (fun e => decide (e.1 = k))).length = 1 := by
  induction m with
  | nil => cases hm
  | cons e rest ih =>
    obtain ⟨k0, v0⟩ := e
    rw [List.map_cons, List.nodup_cons] at hn
    by_cases h0 : k0 = k
    · subst h0
      have hnil : rest.filter (fun e => decide (e.1 = k0)) = [] := by
        rw [List.filter_eq_nil_iff]
        intro a ha
        have : a.1 ≠ k0 := by
          intro e
          apply hn.1
          exact List.mem_map.mpr ⟨a, ha, e⟩
        simp [this]
      simp [List.filter_cons, hnil]
    · have hm2 : k ∈ rest.map Prod.fst := by
        rw [List.map_cons, List.mem_cons] at hm
        rcases hm with e | e
        · exact absurd e.symm h0
        · exact e
      simp [List.filter_cons, h0, ih hn.2 hm2]

theorem extendTape_of_lt (c : Config) (h : c.read_write_head_index + 1 < c.tape.length) :
    extendTape c = c := by
  unfold extendTape
  rw [if_neg (by omega)]

theorem secondRuleText_ruleLine : RuleLine secondRuleText ⟨'0', '0', '0', '0', 'R'⟩ :=
  ⟨[], [' '], [' '], [' '], [' '], [], [], by simp [IsBlank],
    by simp [IsBlank]; decide, by simp [IsBlank]; decide, by simp [IsBlank]; decide,
    by simp [IsBlank]; decide, by simp [IsBlank], by simp, by simp, by simp, by simp,
    by decide, by decide, by decide, by decide, by decide, Or.inl rfl, rfl⟩

/-- C19 as stated fails: in the description `0 0 1 1 L`, `0 0 0 0 R`, `0 0 9`, the first
two lines are well-formed rule lines with the key `('0','0')`, and the lookup of that key
returns the next state `9` of the third line, which has three characters only, not the
rule of the last well-formed line. -/
theorem C19_counterexample :
    RuleLine ruleText ⟨'0', '0', '1', '1', 'L'⟩ ∧
    RuleLine secondRuleText ⟨'0', '0', '0', '0', 'R'⟩ ∧
    mapFind (createTransitionFunction someValues [ruleText, secondRuleText, shortRuleText])
      ('0', '0') = some (('9', '?'), '?') ∧
    mapFind (createTransitionFunction someValues [ruleText, secondRuleText, shortRuleText])
      ('0', '0') ≠ some (('0', '0'), 'R') :=
  ⟨ruleText_ruleLine, secondRuleText_ruleLine, by decide, by decide⟩

/-- C19, amended: in a description that contains a well-formed rule line for a key, and
in which every line after it is an empty line, a comment line or a well-formed rule line
with another key, the map has a single entry for that key and the lookup returns the
next state, write symbol and direction of that line, whatever stands before it, earlier
rule lines with the same key included. -/
theorem C19_last_rule_wins (u : Nat → FiveTuple) (before after : List Str) (line : Str)
    (t : FiveTuple) (hline : RuleLine line t)
    (hafter : ∀ l ∈ after, DescriptionLine l)
    (hlast : ∀ l ∈ after, ∀ t2, RuleLine l t2 → t2.key ≠ t.key) :
    mapFind (createTransitionFunction u (before ++ line :: after)) t.key = some t.value ∧
    ((createTransitionFunction u (before ++ line :: after)).map Prod.fst).Nodup ∧
    ((createTransitionFunction u (before ++ line :: after)).filter
      (fun e => decide (e.1 = t.key))).length = 1 := by
  have hfind : mapFind (createTransitionFunction u (before ++ line :: after)) t.key =
      some t.value := by
    rw [createTransitionFunction, createTransitionFunctionFrom_append,
      createTransitionFunctionFrom,
      mapFind_from_other u t.key after _ _ hafter hlast,
      createTransitionFunctionLine_rule _ _ _ t hline, mapFind_mapAssign, if_pos rfl]
  have hnodup : ((createTransitionFunction u (before ++ line :: after)).map Prod.fst).Nodup :=
    nodup_keys_from u _ 0 [] (by simp)
  refine ⟨hfind, hnodup, single_entry _ t.key hnodup ?_⟩
  by_contra hmem
  rw [← mapFind_eq_none_iff, hfind] at hmem
  cases hmem

/-- The description `0 0 1 1 L`, `0 0 0 0 R`, `// comment`: the key `('0','0')` is mapped
to the rule of the second line. -/
theorem C19_witness :
    RuleLine secondRuleText ⟨'0', '0', '0', '0', 'R'⟩ ∧
    (∀ l ∈ [commentText], DescriptionLine l) ∧
    mapFind (createTransitionFunction someValues [ruleText, secondRuleText, commentText])
      ('0', '0') = some (('0', '0'), 'R') := by
  have hafter : ∀ l ∈ [commentText], DescriptionLine l := by
    intro l hl
    rw [List.mem_singleton] at hl
    exact Or.inr (Or.inl (by rw [hl]; decide))
  have hlast : ∀ l ∈ [commentText], ∀ t2, RuleLine l t2 →
      t2.key ≠ (⟨'0', '0', '0', '0', 'R'⟩ : FiveTuple).key := by
    intro l hl t2 ht2
    rw [List.mem_singleton] at hl
    subst hl
    exact absurd (ruleLine_extract ⟨'?', '?', '?', '?', '?'⟩ _ _ ht2).1 (by decide)
  exact ⟨secondRuleText_ruleLine, hafter,
    (C19_last_rule_wins someValues [ruleText] [commentText] secondRuleText
      ⟨'0', '0', '0', '0', 'R'⟩ secondRuleText_ruleLine hafter hlast).1⟩

/-! ## C20: a direction that is neither `L` nor `R` -/

/-- C20: a rule whose direction is neither `L` nor `R` is applied in a reachable
configuration like any rule, the state and the cell at index `head+1` being updated,
and `moveHead` then changes nothing: the head index and the tape (so its length) are
the ones before `moveHead`, and the next loop iteration scans the same cell, which now
holds the symbol written. -/
theorem C20_other_direction_stays (tf : TRANSITION_MAP) (c : Config)
    (symbol new_state new_tape_symbol direction : Char)
    (hr : Reachable tf c) (hf : c.current_state ≠ 'f')
    (hsym : (extendTape c).tape[c.read_write_head_index + 1]? = some symbol)
    (hfind : mapFind c.transition_function (c.current_state, symbol) =
      some ((new_state, new_tape_symbol), direction))
    (hL : direction ≠ 'L') (hR : direction ≠ 'R') :
    (∀ c2 : Config, moveHead c2 direction = c2) ∧
    ∃ s, lookupApply c = some s ∧ s.verdict = none ∧
      s.cfg.current_state = new_state ∧
      s.cfg.read_write_head_index = c.read_write_head_index ∧
      s.cfg.tape = (extendTape c).tape.set (c.read_write_head_index + 1) new_tape_symbol ∧
      s.cfg.tape.length = (extendTape c).tape.length ∧
      s.cfg.tape[c.read_write_head_index + 1]? = some new_tape_symbol ∧
      (extendTape s.cfg).tape[s.cfg.read_write_head_index + 1]? = some new_tape_symbol := by
  have hmove : ∀ c2 : Config, moveHead c2 direction = c2 := by
    intro c2
    unfold moveHead
    rw [if_neg hR, if_neg hL]
  have hb := extendTape_bound c (reachable_inv tf c hr).2
  have hA := lookupApply_apply c symbol new_state new_tape_symbol direction hsym hf hfind
  rw [hmove] at hA
  have hcell : ((extendTape c).tape.set (c.read_write_head_index + 1) new_tape_symbol)[
      c.read_write_head_index + 1]? = some new_tape_symbol := by
    simp [hb]
  refine ⟨hmove, _, hA, rfl, rfl, rfl, rfl, by simp, hcell, ?_⟩
  have hext := extendTape_of_lt
    { transition_function := c.transition_function
      tape := (extendTape c).tape.set (c.read_write_head_index + 1) new_tape_symbol
      current_state := new_state
      read_write_head_index := c.read_write_head_index } (by simpa using hb)
  rw [hext]
  exact hcell

/-- With the rule `0 0 0 1 S` and the input `0`, the first transition writes `1` at
index `1` and leaves the head at index `0`. -/
theorem C20_witness :
    Reachable stayTable (construct stayTable ['0']) ∧
    mapFind stayTable ('0', '0') = some (('0', '1'), 'S') ∧
    ('S' : Char) ≠ 'L' ∧ ('S' : Char) ≠ 'R' ∧
    ∃ s, lookupApply (construct stayTable ['0']) = some s ∧
      s.cfg.read_write_head_index = 0 ∧ s.cfg.tape = ['B', '1', 'B'] := by
  refine ⟨Reachable.construct _, by decide, by decide, by decide, ?_⟩
  obtain ⟨s, h1, _, _, h4, h5, _⟩ :=
    (C20_other_direction_stays stayTable (construct stayTable ['0']) '0' '0' '1' 'S'
      (Reachable.construct _) (by decide) (by decide) (by decide) (by decide) (by decide)).2
  refine ⟨s, h1, h4, ?_⟩
  rw [h5]
  decide

/-! ## C18: the machine that is simulated -/

theorem getD_append_blank (l : List Char) (p : Prop) [Decidable p] (n : Nat) :
    (l ++ (if p then ['B'] else [])).getD n 'B' = l.getD n 'B' := by
  split
  · by_cases h : n < l.length
    · rw [List.getD_append _ _ _ _ h]
    · rw [List.getD_append_right _ _ _ _ (by omega), List.getD_eq_default l _ (by omega)]
      cases n - l.length <;> rfl
  · rw [List.append_nil]

theorem getD_set_blank (T : List Char) (k n : Nat) (w : Char) (hk : k < T.length) :
    (T.set k w).getD n 'B' = if n = k then w else T.getD n 'B' := by
  by_cases h : n = k
  · subst h
    simp [hk]
  · simp [h, List.getElem?_set_ne (Ne.symm h)]

theorem view_extendTape (c : Config) (i : Int) : view (extendTape c) i = view c i := by
  unfold view
  rw [(extendTape_fields c).2.2, extendTape_tape, getD_append_blank]

/-- The two assignments and `moveHead` are one step of the standard machine. -/
theorem view_moveHead (tf : TRANSITION_MAP) (T : List Char) (st st2 : Char) (h : Nat)
    (w d : Char) (hb : h + 1 < T.length) (i : Int) :
    view (moveHead ⟨tf, T.set (h + 1) w, st2, h⟩ d) i =
      standardStep (view ⟨tf, T, st, h⟩) w d i := by
  have hb2 : h + 1 < (T.set (h + 1) w).length := by simpa using hb
  have hH := moveHead_head ⟨tf, T.set (h + 1) w, st2, h⟩ d hb2
  have hT := moveHead_tape ⟨tf, T.set (h + 1) w, st2, h⟩ d hb2
  simp only at hH hT
  unfold view standardStep
  rw [hH, hT]
  have hc : ∀ (l : List Char) (n : Nat), ('B' :: l).getD n 'B' =
      if n = 0 then 'B' else l.getD (n - 1) 'B' := by
    intro l n
    cases n <;> rfl
  by_cases hR : d = 'R'
  · subst hR
    have hRL : ¬ (('R' : Char) = 'L' ∧ h = 0) := fun e => absurd e.1 (by decide)
    simp only [if_true, Function.update_apply, if_neg hRL, List.nil_append,
      getD_set_blank T (h + 1) _ w hb]
    split_ifs <;> first | rfl | (exfalso; omega) | (congr 1; omega)
  · by_cases hL : d = 'L'
    · subst hL
      simp only [if_neg hR, if_true, Function.update_apply, true_and]
      by_cases h0 : h = 0
      · subst h0
        simp only [if_true, List.singleton_append, hc, getD_set_blank T (0 + 1) _ w hb]
        split_ifs <;> first | rfl | (exfalso; omega) | (congr 1; omega)
      · simp only [if_neg h0, List.nil_append, getD_set_blank T (h + 1) _ w hb]
        split_ifs <;> first | rfl | (exfalso; omega) | (congr 1; omega)
    · clear hH hT
      simp only [hR, hL, false_and, if_false, Function.update_apply,
        List.nil_append, getD_set_blank T (h + 1) _ w hb]
      split_ifs <;> first | rfl | (exfalso; omega)

theorem view_congr (c1 c2 : Config) (ht : c1.tape = c2.tape)
    (hh : c1.read_write_head_index = c2.read_write_head_index) (i : Int) :
    view c1 i = view c2 i := by
  unfold view
  rw [ht, hh]

theorem view_zero (c : Config) : view c 0 = c.tape.getD (c.read_write_head_index + 1) 'B' := by
  unfold view
  rw [if_pos (by omega)]
  congr 1

/-- The symbol that the lookup reads is the one under the head of the simulated machine. -/
theorem scanned_view (c : Config) (h : c.read_write_head_index < c.tape.length) :
    (extendTape c).tape[c.read_write_head_index + 1]? = some (view c 0) := by
  have hb := extendTape_bound c h
  rw [← view_extendTape, view_zero, (extendTape_fields c).2.2,
    List.getD_eq_getElem _ _ hb, List.getElem?_eq_getElem hb]

/-- C18: the loop simulates a standard two-way-infinite machine whose scanned cell is the
buffer cell of index `head+1`. In a reachable configuration the symbol read by the
lookup is the scanned symbol `view c 0`; applying a rule with write symbol `w` and
direction `d` turns the tape `view c` into `standardStep (view c) w d`, and the cell
scanned by the next iteration (index `head+1` after the end-of-tape check) holds
`view 0` of the new configuration. For `R` that cell is the right neighbour of the
written cell, with its previous symbol, or `B` when it did not exist yet, and the
written cell, holding `w`, is immediately to its left; for `L` it is the left neighbour,
with its previous symbol, and the written cell is immediately to its right. In the
constructed configuration the scanned cell holds the first input symbol, or `B` for the
empty input. -/
theorem C18_simulates_standard_machine (tf : TRANSITION_MAP) (c : Config)
    (symbol new_state new_tape_symbol direction : Char)
    (hr : Reachable tf c) (hf : c.current_state ≠ 'f')
    (hsym : (extendTape c).tape[c.read_write_head_index + 1]? = some symbol)
    (hfind : mapFind c.transition_function (c.current_state, symbol) =
      some ((new_state, new_tape_symbol), direction)) :
    view c 0 = symbol ∧
    (∀ input_string : Str,
      (extendTape (construct tf input_string)).tape[
        (construct tf input_string).read_write_head_index + 1]? =
          some (input_string.headD 'B')) ∧
    ∃ s, lookupApply c = some s ∧ s.verdict = none ∧ s.cfg.current_state = new_state ∧
      (∀ i : Int, view s.cfg i = standardStep (view c) new_tape_symbol direction i) ∧
      (extendTape s.cfg).tape[s.cfg.read_write_head_index + 1]? = some (view s.cfg 0) ∧
      (direction = 'R' →
        view s.cfg 0 = c.tape.getD (c.read_write_head_index + 2) 'B' ∧
        view s.cfg (-1) = new_tape_symbol ∧
        s.cfg.tape[s.cfg.read_write_head_index]? = some new_tape_symbol) ∧
      (direction = 'L' →
        c.tape[c.read_write_head_index]? = some (view s.cfg 0) ∧
        view s.cfg 1 = new_tape_symbol ∧
        s.cfg.tape[s.cfg.read_write_head_index + 2]? = some new_tape_symbol) := by
  have hin := (reachable_inv tf c hr).2
  have hb := extendTape_bound c hin
  have hb2 : c.read_write_head_index + 1 <
      ((extendTape c).tape.set (c.read_write_head_index + 1) new_tape_symbol).length := by
    simpa using hb
  have hA := lookupApply_apply c symbol new_state new_tape_symbol direction hsym hf hfind
  have hH := moveHead_head
    ⟨c.transition_function,
      (extendTape c).tape.set (c.read_write_head_index + 1) new_tape_symbol, new_state,
      c.read_write_head_index⟩ direction hb2
  have hT := moveHead_tape
    ⟨c.transition_function,
      (extendTape c).tape.set (c.read_write_head_index + 1) new_tape_symbol, new_state,
      c.read_write_head_index⟩ direction hb2
  have hF := moveHead_fields
    ⟨c.transition_function,
      (extendTape c).tape.set (c.read_write_head_index + 1) new_tape_symbol, new_state,
      c.read_write_head_index⟩ direction
  simp only at hH hT
  obtain ⟨s0, hs0, _, hs0h, _⟩ := lookupApply_inv c hin
  rw [hA] at hs0
  cases hs0
  have hview : ∀ i : Int,
      view (moveHead
        ⟨c.transition_function,
          (extendTape c).tape.set (c.read_write_head_index + 1) new_tape_symbol, new_state,
          c.read_write_head_index⟩ direction) i =
        standardStep (view c) new_tape_symbol direction i := by
    intro i
    rw [view_moveHead c.transition_function (extendTape c).tape c.current_state new_state
      c.read_write_head_index new_tape_symbol direction hb i]
    have hv : view ⟨c.transition_function, (extendTape c).tape, c.current_state,
        c.read_write_head_index⟩ = view c := by
      funext j
      rw [← view_extendTape c j]
      exact view_congr ⟨c.transition_function, (extendTape c).tape, c.current_state,
        c.read_write_head_index⟩ (extendTape c) rfl (extendTape_fields c).2.2.symm j
    rw [hv]
  have hwritten : ((extendTape c).tape.set (c.read_write_head_index + 1) new_tape_symbol)[
      c.read_write_head_index + 1]? = some new_tape_symbol := by
    simp [hb]
  refine ⟨?_, ?_, _, hA, rfl, hF.2, hview, scanned_view _ hs0h, ?_, ?_⟩
  · have := scanned_view c hin
    rw [hsym] at this
    exact (Option.some.inj this).symm
  · intro input_string
    cases input_string <;> simp [construct_eq, extendTape]
  · intro hR
    subst hR
    refine ⟨?_, ?_, ?_⟩
    · rw [hview]
      simp only [standardStep, if_true, Function.update_apply]
      rw [if_neg (by omega)]
      unfold view
      rw [if_pos (by omega)]
      congr 1
    · rw [hview]
      simp [standardStep, Function.update_apply]
    · show (moveHead _ 'R').tape[(moveHead _ 'R').read_write_head_index]? = _
      rw [hH, hT]
      simpa using hwritten
  · intro hL
    subst hL
    refine ⟨?_, ?_, ?_⟩
    · rw [hview]
      have e1 : standardStep (view c) new_tape_symbol 'L' 0 = view c (-1) := by
        simp [standardStep, Function.update_apply]
      have e2 : ((c.read_write_head_index : Int) + 1 + -1).toNat = c.read_write_head_index := by
        omega
      rw [e1]
      unfold view
      rw [if_pos (by omega), e2, List.getD_eq_getElem _ _ hin, List.getElem?_eq_getElem hin]
    · rw [hview]
      simp [standardStep, Function.update_apply]
    · show (moveHead _ 'L').tape[(moveHead _ 'L').read_write_head_index + 2]? = _
      rw [hH, hT]
      by_cases h0 : c.read_write_head_index = 0
      · simp only [h0, and_self, if_true] at hwritten ⊢
        simpa using hwritten
      · have e : c.read_write_head_index - 1 + 2 = c.read_write_head_index + 1 := by omega
        simp only [h0, and_false, if_false, List.nil_append, if_true]
        rw [if_neg (by decide), e]
        exact hwritten

/-- With the rule `0 0 0 1 L` and the input `0`, the first transition prepends a blank:
the next scanned cell, of index `1`, holds the `B` that stood left of the written cell,
and the written cell, of index `2`, holds `1`. -/
theorem C18_witness :
    Reachable leftTable (construct leftTable ['0']) ∧
    (extendTape (construct leftTable ['0'])).tape[0 + 1]? = some '0' ∧
    mapFind leftTable ('0', '0') = some (('0', '1'), 'L') ∧
    ∃ s, lookupApply (construct leftTable ['0']) = some s ∧
      (construct leftTable ['0']).tape[0]? = some (view s.cfg 0) ∧
      s.cfg.tape[s.cfg.read_write_head_index + 2]? = some '1' := by
  refine ⟨Reachable.construct _, by decide, by decide, ?_⟩
  obtain ⟨_, _, s, h1, _, _, _, _, _, hL⟩ :=
    C18_simulates_standard_machine leftTable (construct leftTable ['0']) '0' '0' '1' 'L'
      (Reachable.construct _) (by decide) (by decide) (by decide)
  exact ⟨s, h1, (hL rfl).1, (hL rfl).2.2⟩

end TuringMachine
